import Mathlib

/-!
# A verification model of the vue-types descriptor / validation library

This file embeds the core of the repository (src/index.js and the
utils module whose compiled copy appears at src/unnamed/part_000) into
Lean 4 and proves properties of the embedded code.

Modelling conventions:
* JavaScript runtime values are the inductive `JSVal`.  Numbers are
  modelled as integers (no claim touches non-integral arithmetic),
  functions and symbols are identified by numeric ids, strict equality
  `===` is the structural `jsEq` (exact for primitives, which is what
  the library's literal comparisons use).
* A prop descriptor is the inductive `Descriptor`; its fields mirror
  the own properties the engine reads (`_vueTypes_name`, `type`,
  `required`, `default`, `validator`, the `validate`-method flag and the
  `_vueTypes_isLoose` flag).  An absent own property is `none`; the JS
  value `undefined` stored in `type` is `TypeVal.tundef`, so that
  "absent" and "present but undefined" stay distinct exactly as the
  source distinguishes them (`hasOwn` vs `=== undefined`).
* The process-wide diagnostic sink `warn` (a swappable function
  reference, see utils lines 247-258 and 273-285) is modelled as a
  stack of message buffers `WState`: the head is the target the current
  `warn` reference writes to; swapping in a buffering closure pushes a
  fresh buffer, the `warn = oldWarn` restore pops it.  A validator that
  throws skips the restore, exactly as in the source (there is no
  try/finally), so the leaked buffer stays on the stack.
* `validateType` and the validator closures are mutually recursive
  through descriptor structure and value structure, so the engine is a
  single fuel-indexed interpreter `step` over a request type `Req`.
  `reqSize` bounds the recursion depth; the soundness theorem below
  proves that any fuel above the bound gives the same, fuel-independent
  result, and the public wrapper `validateType` runs at that bound.
-/

set_option maxHeartbeats 1600000

namespace VT

/-- Native constructor functions (`Boolean`, `Number`, ..., plus user
classes identified by a numeric id). -/
inductive Ctor where
  | boolean | number | str | func | array | object | symbol
  | cls (id : Nat)
deriving DecidableEq, Repr

/-- JavaScript runtime values. -/
inductive JSVal where
  | undef
  | null
  | boolV (b : Bool)
  | numV (n : Int)
  | strV (s : String)
  | symV (id : Nat)
  | funcV (id : Nat)
  | arrV (elems : List JSVal)
  | objV (fields : List (String × JSVal))
  | instV (cid : Nat) (fields : List (String × JSVal))

mutual
/-- Strict equality `===`, the model's notion of value identity (exact
for primitives; structural for the array/object literals that appear
in `oneOf` lists). -/
def jsEq : JSVal → JSVal → Bool
  | .undef, .undef => true
  | .null, .null => true
  | .boolV a, .boolV b => a == b
  | .numV a, .numV b => a == b
  | .strV a, .strV b => a == b
  | .symV a, .symV b => a == b
  | .funcV a, .funcV b => a == b
  | .arrV xs, .arrV ys => jsEqList xs ys
  | .objV fs, .objV gs => jsEqFields fs gs
  | .instV i fs, .instV j gs => i == j && jsEqFields fs gs
  | _, _ => false

def jsEqList : List JSVal → List JSVal → Bool
  | [], [] => true
  | x :: xs, y :: ys => jsEq x y && jsEqList xs ys
  | _, _ => false

def jsEqFields : List (String × JSVal) → List (String × JSVal) → Bool
  | [], [] => true
  | (k, v) :: xs, (l, w) :: ys => k == l && jsEq v w && jsEqFields xs ys
  | _, _ => false
end

/-- `value.constructor` of a JS value (`none` for `null`/`undefined`,
which have no constructor and are filtered before access in `oneOf`). -/
def jsCtor : JSVal → Option Ctor
  | .undef => none
  | .null => none
  | .boolV _ => some .boolean
  | .numV _ => some .number
  | .strV _ => some .str
  | .symV _ => some .symbol
  | .funcV _ => some .func
  | .arrV _ => some .array
  | .objV _ => some .object
  | .instV i _ => some (.cls i)

/-- The constructor-function name that `getType`/`getNativeType`
extract via the `function (\w+)` regexp (utils lines 8-21). -/
def ctorName : Ctor → String
  | .boolean => "Boolean"
  | .number => "Number"
  | .str => "String"
  | .func => "Function"
  | .array => "Array"
  | .object => "Object"
  | .symbol => "Symbol"
  | .cls i => "Class" ++ toString i

/-- `getNativeType(value)` (utils lines 17-21). -/
def getNativeType (v : JSVal) : Option String :=
  (jsCtor v).map ctorName

/-- JavaScript truthiness. -/
def jsTruthy : JSVal → Bool
  | .undef => false
  | .null => false
  | .boolV b => b
  | .numV n => n != 0
  | .strV s => s != ""
  | _ => true

/-- The strict check `=== true` the engine's callers apply to
`validateType` results. -/
def isTrueV : JSVal → Bool
  | .boolV b => b
  | _ => false

def isUndef : JSVal → Bool
  | .undef => true
  | _ => false

/-- `isPlainObject` (the is-plain-object dependency): object literals
only; class instances, arrays and primitives are not plain. -/
def isPlainObjectV : JSVal → Bool
  | .objV _ => true
  | _ => false

/-- `isArray` (utils lines 73-77). -/
def isArrayV : JSVal → Bool
  | .arrV _ => true
  | _ => false

/-- `isFunction` (utils lines 85-86). -/
def isFunctionV : JSVal → Bool
  | .funcV _ => true
  | _ => false

/-- Own enumerable fields of a structural value. -/
def objFieldsOf : JSVal → List (String × JSVal)
  | .objV fs => fs
  | _ => []

/-- String conversion of a non-array value as a JS template literal /
`String(...)` performs it.  (Symbols throw in JS; they are given a
placeholder here since no diagnostic claim mentions them.) -/
def dispAtom : JSVal → String
  | .undef => "undefined"
  | .null => "null"
  | .boolV b => if b then "true" else "false"
  | .numV n => toString n
  | .strV s => s
  | .symV _ => "Symbol()"
  | .funcV _ => "function"
  | .arrV _ => ""
  | .objV _ => "[object Object]"
  | .instV _ _ => "[object Object]"

/-- Element display inside `Array.prototype.join` (null/undefined
render as the empty string; nested arrays are abbreviated). -/
def dispInner : JSVal → String
  | .undef => ""
  | .null => ""
  | .arrV _ => "[array]"
  | v => dispAtom v

/-- `${value}` as used in the engine's diagnostics. -/
def disp : JSVal → String
  | .arrV xs => String.intercalate "," (xs.map dispInner)
  | v => dispAtom v

/-- One member of a `type` array (the engine's union case): a
constructor, `null`, or the JS value `undefined`. -/
inductive TypeMember where
  | mnull
  | mundef
  | mctor (c : Ctor)
deriving DecidableEq, Repr

/-- The value of a descriptor's `type` own property: `null`, the JS
value `undefined`, a single constructor, or an array of members. -/
inductive TypeVal where
  | tnull
  | tundef
  | single (c : Ctor)
  | tlist (ms : List TypeMember)
deriving DecidableEq, Repr

/-- The value stored in a descriptor's `default` own property.  The
two factory forms record that `withDefault` stored `() => [...def]`
resp. `() => Object.assign({}, def)` — a zero-argument closure whose
every call builds a fresh shallow copy of the recorded literal — while
`val` records a value (possibly itself a function) stored verbatim. -/
inductive DefaultVal where
  | val (v : JSVal)
  | arrFactory (elems : List JSVal)
  | objFactory (fields : List (String × JSVal))

mutual
/-- A prop descriptor object: `_vueTypes_name`, own `type`, own
`required`, own `default`, own `validator`, whether a settable
`validate` method was attached (`withValidate`), and the
`_vueTypes_isLoose` flag used by `shape`. -/
inductive Descriptor where
  | mk (name : Option String) (typeF : Option TypeVal)
       (required : Option Bool) (defaultF : Option DefaultVal)
       (validator : Option Validator) (validatable : Bool)
       (isLoose : Bool)

/-- The validator closures the library stores on descriptors, plus
arbitrary user-supplied validator functions (identified by an id whose
behaviour an environment `UserEnv` prescribes). -/
inductive Validator where
  | user (f : Nat)
  | customV (f : Nat) (warnMsg : String)
  | oneOfV (arr : List JSVal)
  | symbolV
  | integerV
  | stubTrueV
  | arrayOfV (t : TypeArg)
  | objectOfV (t : TypeArg)
  | shapeV (fields : List (String × TypeArg))
  | oneOfTypeV (cands : List TypeArg)
  | andThen (parent : Descriptor) (child : Validator)

/-- The first argument of `validateType`: a descriptor (a plain
object) or a bare type (constructor, `null`, `undefined`, array). -/
inductive TypeArg where
  | desc (d : Descriptor)
  | bare (tv : TypeVal)
end

namespace Descriptor

def name : Descriptor → Option String
  | .mk n _ _ _ _ _ _ => n

def typeF : Descriptor → Option TypeVal
  | .mk _ t _ _ _ _ _ => t

def required : Descriptor → Option Bool
  | .mk _ _ r _ _ _ _ => r

def defaultF : Descriptor → Option DefaultVal
  | .mk _ _ _ df _ _ _ => df

def validator : Descriptor → Option Validator
  | .mk _ _ _ _ v _ _ => v

def validatable : Descriptor → Bool
  | .mk _ _ _ _ _ vf _ => vf

def isLoose : Descriptor → Bool
  | .mk _ _ _ _ _ _ l => l

/-- `.loose` getter of `shape` (index.js lines 359-365). -/
def loose : Descriptor → Descriptor
  | .mk n t r df v vf _ => .mk n t r df v vf true

/-- Reading `.isRequired` (utils `withRequired`, lines 124-132): sets
`required = true` on the descriptor and returns it. -/
def isRequired : Descriptor → Descriptor
  | .mk n t _ df v vf l => .mk n t (some true) df v vf l

/-- Assign the `default` own property. -/
def setDefault : Descriptor → Option DefaultVal → Descriptor
  | .mk n t r _ v vf l, df => .mk n t r df v vf l

end Descriptor

end VT

namespace VT

/-! ## The diagnostic sink

`warn` is a process-wide swappable function reference (utils lines
273-285).  A `WState` is the stack of targets such references write
to: the head is the target of the current `warn`; `validateType`'s
validator stage swaps in a buffering closure (push a fresh buffer) and
restores the saved reference afterwards (drop the frame) — but only on
the normal return path, as in the source. -/

abbrev WState := List (List String)

/-- `warn(msg)`: append to the current sink's target. -/
def warnEmit (s : WState) (msg : String) : WState :=
  match s with
  | [] => []
  | hd :: tl => (hd ++ [msg]) :: tl

/-- Exceptions the engine can raise or propagate. -/
inductive JSError where
  | typeError (msg : String)
  | userRaise
deriving DecidableEq, Repr

/-- Result of running an engine request: a returned JS value with the
resulting sink state, a propagating exception with the state at the
throw point, or fuel exhaustion (a model artifact that never occurs at
the fuel bound used by the public wrappers). -/
inductive Outcome where
  | ok (ret : JSVal) (s : WState)
  | thrown (e : JSError) (s : WState)
  | fuelOut

/-- Behaviour of user-supplied validator functions: for a function id
and an argument list, the messages the function writes through `warn`
followed by `some` returned value, or `none` when the function throws. -/
abbrev UserEnv := Nat → List JSVal → List String × Option JSVal

/-! ## The native-type stage of `validateType` (utils lines 204-236) -/

/-- `getType` display name of a union member (utils lines 11-15;
`null`/`undefined` members yield `null`, which `join` renders as an
empty string). -/
def memberDispName : TypeMember → String
  | .mnull => ""
  | .mundef => ""
  | .mctor c => ctorName c

/-- The single-constructor native check (utils lines 219-234):
structural checks for `Array`/`Object`, constructor-name comparison
for the primitive tags, `instanceof` otherwise. -/
def nativeSingle (c : Ctor) (value : JSVal) : Bool :=
  let expected := ctorName c
  if expected = "Array" then isArrayV value
  else if expected = "Object" then isPlainObjectV value
  else if expected = "String" ∨ expected = "Number" ∨ expected = "Boolean"
          ∨ expected = "Function" then
    getNativeType value = some expected
  else
    -- value instanceof typeToCheck.type
    match value, c with
    | .instV i _, .cls j => i = j
    | _, _ => false

/-- The recursive call `validateType(member, value, true) === true`
performed for each member of a `type` array (utils lines 213-216),
unfolded: a member descriptor is `{type: member}` with no name, no
`required` and no validator, so the call reduces to the undefined
short-circuit plus the single native check (or an immediate pass for a
`null` member, or the configuration `TypeError` for an `undefined`
member). -/
def memberPasses (m : TypeMember) (value : JSVal) : Except JSError Bool :=
  match m with
  | .mnull => .ok true
  | .mundef =>
    .error (.typeError "[VueTypes error]: Setting type to undefined is not allowed.")
  | .mctor c => .ok (isUndef value || nativeSingle c value)

/-- `typeToCheck.type.some(...)` over the members of a `type` array,
short-circuiting on the first success and propagating a thrown
`TypeError`. -/
def unionSome (ms : List TypeMember) (value : JSVal) : Except JSError Bool :=
  match ms with
  | [] => .ok false
  | m :: rest =>
    match memberPasses m value with
    | .error e => .error e
    | .ok true => .ok true
    | .ok false => unionSome rest value

/-- Wrapping a non-plain-object `type` argument: `typeToCheck = { type }`
(utils lines 197-199). -/
def normalizeArg : TypeArg → Descriptor
  | .desc d => d
  | .bare tv => .mk none (some tv) none none none false false

/-- Truthiness of the `required` own property. -/
def truthyOptB : Option Bool → Bool
  | none => false
  | some b => b

/-- `type.type || null` (index.js line 260). -/
def typeFallback : Option TypeVal → TypeVal
  | some (.single c) => .single c
  | some (.tlist ms) => .tlist ms
  | _ => .tnull

/-- `getType(type)` as used in the `arrayOf`/`objectOf` diagnostics
(an array `type` stringifies to its joined members, so the regexp
matches the first constructor's source if any; everything else without
a `function`-keyword source yields `null`, displayed as "null"). -/
def getTypeDisp (t : TypeArg) : String :=
  let ofTV : Option TypeVal → String := fun tv =>
    match tv with
    | some (.single c) => ctorName c
    | some (.tlist (TypeMember.mctor c :: _)) => ctorName c
    | _ => "null"
  match t with
  | .desc d => ofTV d.typeF
  | .bare tv => ofTV (some tv)

/-- `${this._vueTypes_name}` in validator diagnostics. -/
def dispName (d : Descriptor) : String :=
  match d.name with
  | some nm => nm
  | none => "undefined"

/-- Whether a `shape` field counts as required:
`obj[key] && obj[key].required === true` (index.js lines 300-302). -/
def isRequiredField : TypeArg → Bool
  | .desc d => d.required = some true
  | .bare _ => false

/-! ## The engine -/

/-- A request to the recursive engine: a `validateType(type, value,
silent)` call, a validator invocation (with the descriptor the closure
was bound to), the element loop of `arrayOf`/`objectOf`
(`values.every((v) => validateType(type, v))`), the per-key loop of
`shape`'s validator, or the candidate loop of `oneOfType`'s validator
(`arr.some(...)`). -/
inductive Req where
  | vt (t : TypeArg) (value : JSVal) (silent : Bool)
  | rv (self : Descriptor) (v : Validator) (value : JSVal)
  | everyLoud (t : TypeArg) (vals : List JSVal)
  | shapeIter (self : Descriptor) (fields : List (String × TypeArg))
              (rem : List (String × JSVal))
  | someCand (cands : List TypeArg) (value : JSVal)

/-- Own enumerable values for `objectOf`'s
`Object.keys(obj).every((key) => validateType(type, obj[key]))`:
throws for `null`/`undefined`, walks entries of structural values, and
yields nothing for remaining primitives.  (`Object.keys` of a string
would walk its characters; that case is unreachable through the
library's `objectOf`, which is guarded by the `Object` native check,
and is abstracted to the empty list.) -/
def jsOwnValues : JSVal → Except JSError (List JSVal)
  | .undef => .error (.typeError "Cannot convert undefined or null to object")
  | .null => .error (.typeError "Cannot convert undefined or null to object")
  | .arrV xs => .ok xs
  | .objV fs => .ok (fs.map Prod.snd)
  | .instV _ fs => .ok (fs.map Prod.snd)
  | _ => .ok []

/-- The message of the `shape` missing-required-keys diagnostic
(index.js lines 317-328). -/
def shapeMissingMsg (missing : List String) : String :=
  if missing.length = 1 then
    "shape - required property \"" ++ missing.headD "" ++ "\" is not defined."
  else
    "shape - required properties \"" ++ String.intercalate "\", \"" missing
      ++ "\" are not defined."

/-- The `oneOf` failure message, built from the literal list at
construction time (index.js line 194). -/
def oneOfMsg (arr : List JSVal) : String :=
  "oneOf - value should be one of \"" ++ String.intercalate "\", \"" (arr.map dispInner) ++ "\""

/-- The fuel-indexed engine.  `.vt` is `validateType` (utils lines
193-271); `.rv` runs a stored validator closure; the remaining
requests are the inner loops of the composite validators
(index.js lines 258-268, 275-281, 287-295, 306-350). -/
def step (env : UserEnv) : Nat → Req → WState → Outcome
  | 0, _, _ => .fuelOut
  | n + 1, .vt t value silent, s =>
    let d := normalizeArg t
    let namePre := match d.name with
      | some nm => nm ++ " - "
      | none => ""
    -- the native-type stage: `.error` models a thrown TypeError,
    -- `.ok none` the undefined short-circuit's immediate `return valid`,
    -- `.ok (some (valid, expected))` falling through with those locals
    let stage1 : Except JSError (Option (Bool × String)) :=
      match d.typeF with
      | none => .ok (some (true, ""))
      | some .tnull => .ok (some (true, ""))
      | some .tundef =>
        .error (.typeError "[VueTypes error]: Setting type to undefined is not allowed.")
      | some (.single c) =>
        if ¬ truthyOptB d.required ∧ isUndef value then .ok none
        else .ok (some (nativeSingle c value, ctorName c))
      | some (.tlist ms) =>
        if ¬ truthyOptB d.required ∧ isUndef value then .ok none
        else
          match unionSome ms value with
          | .error e => .error e
          | .ok b => .ok (some (b, String.intercalate " or " (ms.map memberDispName)))
    match stage1 with
    | .error e => .thrown e s
    | .ok none => .ok (.boolV true) s
    | .ok (some (valid, expected)) =>
      if valid = false then
        let msg := namePre ++ "value \"" ++ disp value
          ++ "\" should be of type \"" ++ expected ++ "\""
        if silent = false then .ok (.boolV false) (warnEmit s msg)
        else .ok (.strV msg) s
      else
        match d.validator with
        | none => .ok (.boolV true) s
        | some v =>
          -- const oldWarn = warn; warn = (msg) => warnLog.push(msg)
          match step env n (.rv d v value) ([] :: s) with
          | .fuelOut => .fuelOut
          | .thrown e s2 => .thrown e s2   -- no restore: the buffer frame leaks
          | .ok ret s2 =>
            let warnLog := s2.headD []
            let s3 := s2.tail               -- warn = oldWarn
            if jsTruthy ret then .ok ret s3
            else
              let msg := if warnLog.isEmpty then ""
                else "* " ++ String.intercalate "\n * " warnLog
              if silent = false then
                .ok ret (if msg = "" then s3 else warnEmit s3 msg)
              else .ok (.strV msg) s3
  | n + 1, .rv self v value, s =>
    match v with
    | .user f =>
      let res := env f [value]
      let s1 := res.1.foldl warnEmit s
      match res.2 with
      | none => .thrown .userRaise s1
      | some r => .ok r s1
    | .customV f wmsg =>
      -- custom(validatorFn, warnMsg)'s wrapper (index.js lines 179-185)
      let res := env f [value]
      let s1 := res.1.foldl warnEmit s
      match res.2 with
      | none => .thrown .userRaise s1
      | some r =>
        if jsTruthy r then .ok r s1
        else .ok r (warnEmit s1 (dispName self ++ " - " ++ wmsg))
    | .oneOfV arr =>
      -- oneOf's validator (index.js lines 204-208)
      let valid := arr.any (fun x => jsEq x value)
      if valid then .ok (.boolV true) s
      else .ok (.boolV false) (warnEmit s (oneOfMsg arr))
    | .symbolV =>
      .ok (.boolV (match value with | .symV _ => true | _ => false)) s
    | .integerV =>
      .ok (.boolV (match value with | .numV _ => true | _ => false)) s
    | .stubTrueV => .ok (.boolV true) s
    | .arrayOfV t =>
      -- arrayOf's validator (index.js lines 275-280)
      match value with
      | .arrV xs =>
        match step env n (.everyLoud t xs) s with
        | .fuelOut => .fuelOut
        | .thrown e s2 => .thrown e s2
        | .ok r s2 =>
          if jsTruthy r then .ok (.boolV true) s2
          else .ok (.boolV false)
            (warnEmit s2 ("arrayOf - value must be an array of \"" ++ getTypeDisp t ++ "\""))
      | _ => .thrown (.typeError "values.every is not a function") s
    | .objectOfV t =>
      -- objectOf's validator (index.js lines 287-294)
      match jsOwnValues value with
      | .error e => .thrown e s
      | .ok vals =>
        match step env n (.everyLoud t vals) s with
        | .fuelOut => .fuelOut
        | .thrown e s2 => .thrown e s2
        | .ok r s2 =>
          if jsTruthy r then .ok (.boolV true) s2
          else .ok (.boolV false)
            (warnEmit s2 ("objectOf - value must be an object of \"" ++ getTypeDisp t ++ "\""))
    | .shapeV fields =>
      -- shape's validator (index.js lines 306-350)
      if ¬ isPlainObjectV value then .ok (.boolV false) s
      else
        let fs := objFieldsOf value
        let valueKeys := fs.map Prod.fst
        let requiredKeys := (fields.filter (fun p => isRequiredField p.2)).map Prod.fst
        let missing := requiredKeys.filter (fun k => ¬ valueKeys.contains k)
        if requiredKeys ≠ [] ∧ missing ≠ [] then
          .ok (.boolV false) (warnEmit s (shapeMissingMsg missing))
        else
          step env n (.shapeIter self fields fs) s
    | .oneOfTypeV cands =>
      -- oneOfType's validator (index.js lines 258-267)
      match step env n (.someCand cands value) s with
      | .fuelOut => .fuelOut
      | .thrown e s2 => .thrown e s2
      | .ok r s2 =>
        if jsTruthy r then .ok (.boolV true) s2
        else .ok (.boolV false)
          (warnEmit s2 ("oneOfType - value \"" ++ disp value
            ++ "\" does not match any of the passed-in validators."))
    | .andThen parent child =>
      -- the composed validator extend builds for a derived type
      -- (index.js lines 138-142): parent's validator with the parent
      -- as context, `&&` the child's validator
      match parent.validator with
      | none => .thrown (.typeError "validator is not a function") s
      | some pv =>
        match step env n (.rv parent pv value) s with
        | .fuelOut => .fuelOut
        | .thrown e s2 => .thrown e s2
        | .ok r1 s2 =>
          if jsTruthy r1 then step env n (.rv self child value) s2
          else .ok r1 s2
  | n + 1, .everyLoud t vals, s =>
    match vals with
    | [] => .ok (.boolV true) s
    | x :: rest =>
      match step env n (.vt t x false) s with
      | .fuelOut => .fuelOut
      | .thrown e s2 => .thrown e s2
      | .ok r s2 =>
        if jsTruthy r then step env n (.everyLoud t rest) s2
        else .ok (.boolV false) s2
  | n + 1, .shapeIter self fields rem, s =>
    match rem with
    | [] => .ok (.boolV true) s
    | (k, v) :: rest =>
      if ¬ (fields.map Prod.fst).contains k then
        if self.isLoose then step env n (.shapeIter self fields rest) s
        else .ok (.boolV false)
          (warnEmit s ("shape - shape definition does not include a \"" ++ k
            ++ "\" property. Allowed keys: \""
            ++ String.intercalate "\", \"" (fields.map Prod.fst) ++ "\"."))
      else
        match step env n (.vt ((List.lookup k fields).getD (.bare .tnull)) v true) s with
        | .fuelOut => .fuelOut
        | .thrown e s2 => .thrown e s2
        | .ok r s2 =>
          let s3 := match r with
            | .strV m =>
              warnEmit s2 ("shape - \"" ++ k ++ "\" property validation error:\n * " ++ m)
            | _ => s2
          if isTrueV r then step env n (.shapeIter self fields rest) s3
          else .ok (.boolV false) s3
  | n + 1, .someCand cands value, s =>
    match cands with
    | [] => .ok (.boolV false) s
    | cand :: rest =>
      let t : TypeArg := match cand with
        | .desc d => if d.name = some "oneOf" then .bare (typeFallback d.typeF) else cand
        | .bare tv => .bare tv
      match step env n (.vt t value true) s with
      | .fuelOut => .fuelOut
      | .thrown e s2 => .thrown e s2
      | .ok r s2 =>
        if isTrueV r then .ok (.boolV true) s2
        else step env n (.someCand rest value) s2

/-! ## Recursion measure -/

mutual
/-- Size of a JS value (counts structural depth and breadth). -/
def jsSize : JSVal → Nat
  | .arrV xs => 1 + jsSizeList xs
  | .objV fs => 1 + jsSizeFields fs
  | .instV _ fs => 1 + jsSizeFields fs
  | _ => 1

def jsSizeList : List JSVal → Nat
  | [] => 0
  | x :: xs => 1 + jsSize x + jsSizeList xs

def jsSizeFields : List (String × JSVal) → Nat
  | [] => 0
  | (_, v) :: xs => 1 + jsSize v + jsSizeFields xs
end

mutual
def descSize : Descriptor → Nat
  | .mk _ _ _ _ none _ _ => 1
  | .mk _ _ _ _ (some v) _ _ => 2 + valSize v

def valSize : Validator → Nat
  | .arrayOfV t => 1 + targSize t
  | .objectOfV t => 1 + targSize t
  | .shapeV fields => 1 + fieldsSize fields
  | .oneOfTypeV cands => 1 + targsSize cands
  | .andThen p c => 1 + descSize p + valSize c
  | _ => 1

def targSize : TypeArg → Nat
  | .desc d => 1 + descSize d
  | .bare _ => 1

def fieldsSize : List (String × TypeArg) → Nat
  | [] => 0
  | (_, ta) :: rest => 1 + targSize ta + fieldsSize rest

def targsSize : List TypeArg → Nat
  | [] => 0
  | t :: rest => 1 + targSize t + targsSize rest
end

/-- An upper bound on the recursion structure of a request; the engine
is fuel-independent above this bound (proved below). -/
def reqSize : Req → Nat
  | .vt t value _ => targSize t + jsSize value
  | .rv _ v value => valSize v + jsSize value
  | .everyLoud t vals => targSize t + jsSizeList vals
  | .shapeIter _ fields rem => fieldsSize fields + jsSizeFields rem
  | .someCand cands value => targsSize cands + jsSize value

/-- Run a request at its fuel bound, starting from a sink state with
one empty target (the process-wide `warn`). -/
def runReq (env : UserEnv) (req : Req) : Outcome :=
  step env (reqSize req + 1) req [[]]

/-- `validateType(type, value, silent)` (utils lines 193-271). -/
def validateType (env : UserEnv) (t : TypeArg) (value : JSVal)
    (silent : Bool := false) : Outcome :=
  runReq env (.vt t value silent)

/-- `VueTypes.utils.validate(value, type)` (index.js lines 374-376):
`validateType(type, value, true) === true`. -/
def utilsValidate (env : UserEnv) (value : JSVal) (t : TypeArg) : Bool :=
  match validateType env t value true with
  | .ok r _ => isTrueV r
  | _ => false

end VT

namespace VT

/-! ## Descriptor construction (toType and the named builders) -/

/-- `toType(name, obj, validateFn)` (utils lines 158-183): stamps the
name, attaches the modifiers, attaches a settable `validate` method
only when `validateFn` is true, and binds the validator to the object
(binding is implicit here: the engine passes the owning descriptor as
the closure's context). -/
def toType (name : String) (typeF : Option TypeVal) (required : Option Bool)
    (defaultF : Option DefaultVal) (validator : Option Validator)
    (validateFn : Bool := false) : Descriptor :=
  .mk (some name) typeF required defaultF validator validateFn false

/-- `VueTypes.any` (index.js lines 16-24). -/
def anyD : Descriptor := toType "any" (some .tnull) none none none true

/-- `VueTypes.func` (lines 26-34; the sensible default is orthogonal
to every claim and omitted). -/
def funcD : Descriptor := toType "function" (some (.single .func)) none none none true

/-- `VueTypes.bool` (lines 36-44). -/
def boolD : Descriptor := toType "boolean" (some (.single .boolean)) none none none true

/-- `VueTypes.string` (lines 46-54). -/
def stringD : Descriptor := toType "string" (some (.single .str)) none none none true

/-- `VueTypes.number` (lines 56-64). -/
def numberD : Descriptor := toType "number" (some (.single .number)) none none none true

/-- `VueTypes.array` (lines 66-74). -/
def arrayD : Descriptor := toType "array" (some (.single .array)) none none none true

/-- `VueTypes.object` (lines 76-84). -/
def objectD : Descriptor := toType "object" (some (.single .object)) none none none true

/-- `VueTypes.integer` (lines 86-93). -/
def integerD : Descriptor :=
  toType "integer" (some (.single .number)) none none (some .integerV) false

/-- `VueTypes.symbol` (lines 95-106). -/
def symbolD : Descriptor := toType "symbol" (some .tnull) none none (some .symbolV) true

/-- `VueTypes.custom(validatorFn, warnMsg)` (lines 172-186). -/
def custom (f : Nat) (fname : String := "<<anonymous function>>")
    (warnMsg : String := "custom validation failed") : Descriptor :=
  toType fname none none none (some (.customV f warnMsg))

/-- The `allowedTypes` reduction of `oneOf` (lines 195-200): the
order-preserving, first-occurrence-deduplicated constructors of the
non-null, non-undefined members. -/
def oneOfAllowed (arr : List JSVal) : List Ctor :=
  arr.foldl (fun ret v =>
    match jsCtor v with
    | none => ret
    | some c => if ret.contains c then ret else ret ++ [c]) []

/-- `VueTypes.oneOf(arr)` (lines 188-210). -/
def oneOf (arr : List JSVal) : Descriptor :=
  let allowed := oneOfAllowed arr
  toType "oneOf"
    (some (if allowed.isEmpty then .tnull else .tlist (allowed.map .mctor)))
    none none (some (.oneOfV arr))

/-- `VueTypes.instanceOf(ctor)` (lines 212-216). -/
def instanceOf (cid : Nat) : Descriptor :=
  toType "instanceOf" (some (.single (.cls cid))) none none none

/-- `VueTypes.arrayOf(type)` (lines 272-282). -/
def arrayOf (t : TypeArg) : Descriptor :=
  toType "arrayOf" (some (.single .array)) none none (some (.arrayOfV t))

/-- `VueTypes.objectOf(type)` (lines 284-296). -/
def objectOf (t : TypeArg) : Descriptor :=
  toType "objectOf" (some (.single .object)) none none (some (.objectOfV t))

/-- `VueTypes.shape(obj)` (lines 298-368). -/
def shape (fields : List (String × TypeArg)) : Descriptor :=
  toType "shape" (some (.single .object)) none none (some (.shapeV fields))

/-- One candidate's contribution to `oneOfType`'s `nativeChecks`
reduction (lines 227-243): a nested `oneOf` contributes
`type.type || []`; any other plain object contributes its own `type`
(concatenated if an array, skipped only if the property is absent or
the JS value `undefined`); a non-object candidate is pushed as-is.
(A bare array candidate — `ret.push` of an array — is flattened here;
no library path produces one.) -/
def candMembers : TypeArg → List TypeMember
  | .desc d =>
    if d.name = some "oneOf" then
      match d.typeF with
      | some (.single c) => [.mctor c]
      | some (.tlist ms) => ms
      | _ => []
    else
      match d.typeF with
      | none => []
      | some .tundef => []
      | some .tnull => [.mnull]
      | some (.single c) => [.mctor c]
      | some (.tlist ms) => ms
  | .bare .tnull => [.mnull]
  | .bare .tundef => [.mundef]
  | .bare (.single c) => [.mctor c]
  | .bare (.tlist ms) => ms

/-- Whether a candidate sets `hasCustomValidators` (lines 228-234):
plain objects not named `oneOf` whose `validator` is a function. -/
def candHasValidator : TypeArg → Bool
  | .desc d => d.name ≠ some "oneOf" && d.validator.isSome
  | .bare _ => false

/-- The duplicate removal of line 246 (keep first occurrences). -/
def dedupMembers (ms : List TypeMember) : List TypeMember :=
  ms.foldl (fun ret m => if ret.contains m then ret else ret ++ [m]) []

/-- `VueTypes.oneOfType(arr)` (lines 218-270). -/
def oneOfType (cands : List TypeArg) : Descriptor :=
  let native := dedupMembers (cands.foldl (fun ret c => ret ++ candMembers c) [])
  if cands.any candHasValidator then
    toType "oneOfType" (some (.tlist native)) none none (some (.oneOfTypeV cands))
  else
    toType "oneOfType" (some (.tlist native)) none none none

/-! ## `def` — the default setter (utils `withDefault`, lines 94-116) -/

/-- Truthiness of the current `default` own property (`!this.default`):
an absent property is `undefined`, factories are functions and hence
truthy. -/
def defTruthy : Option DefaultVal → Bool
  | none => false
  | some (.val v) => jsTruthy v
  | some (.arrFactory _) => true
  | some (.objFactory _) => true

/-- Result of a `def(...)` call: the (possibly updated) descriptor and
the diagnostics written to the process sink, or a propagated
exception. -/
inductive DefOutcome where
  | ok (d : Descriptor) (emitted : List String)
  | thrown (e : JSError)
  | fuelOut

/-- `type.def(value)` (utils lines 96-112). -/
def defMethod (env : UserEnv) (d : Descriptor) (x : JSVal) : DefOutcome :=
  if isUndef x ∧ ¬ defTruthy d.defaultF then .ok d []
  else if isFunctionV x then
    -- isFunction(def) skips validation; a function is neither an
    -- array nor a plain object, so it is stored verbatim
    .ok (d.setDefault (some (.val x))) []
  else
    match validateType env (.desc d) x false with
    | .fuelOut => .fuelOut
    | .thrown e _ => .thrown e
    | .ok r s1 =>
      let emitted := s1.headD []
      if ¬ jsTruthy r then
        .ok d (emitted ++ [dispName d ++ " - invalid default value: \"" ++ disp x ++ "\""])
      else
        match x with
        | .arrV xs => .ok (d.setDefault (some (.arrFactory xs))) emitted
        | .objV fs => .ok (d.setDefault (some (.objFactory fs))) emitted
        | _ => .ok (d.setDefault (some (.val x))) emitted

/-! ## `extend` — the extension registry (index.js lines 108-170) -/

/-- The argument of a single `extend` call (`name`, `validate`,
`getter`, and the remaining `opts`).  `typeS` is the `type` entry: a
bare native type or an existing descriptor to derive from. -/
structure ExtSpec where
  name : String
  validateM : Bool := false
  getter : Bool := false
  typeS : Option TypeArg := none
  validatorS : Option Validator := none
  requiredS : Option Bool := none
  defaultS : Option DefaultVal := none

/-- `type['default'] !== undefined` for the inheritance copy: a stored
`default` whose value is the JS `undefined` does not count as defined. -/
def definedDefault : Option DefaultVal → Option DefaultVal
  | some (.val .undef) => none
  | o => o

/-- The descriptor a derived getter type produces when `spec.type` is
an existing vue-types descriptor (lines 121-151): `type`, `required`
and `default` are inherited from the parent where defined, the
settable `validate` method is forced off, and when the parent has a
validator the stored validator becomes the conjunction of the parent's
(run with the parent as context) and the child's (or `stubTrue`). -/
def extendWithParent (parent : Descriptor) (spec : ExtSpec) : Descriptor :=
  let typeF : Option TypeVal :=
    match parent.typeF with
    | some .tundef => none
    | some tv => some tv
    | none => none
  let req : Option Bool :=
    match parent.required with
    | some b => some b
    | none => spec.requiredS
  let dflt : Option DefaultVal :=
    match definedDefault parent.defaultF with
    | some dv => some dv
    | none => spec.defaultS
  let vOut : Option Validator :=
    match parent.validator with
    | some _ => some (.andThen parent (spec.validatorS.getD .stubTrueV))
    | none => spec.validatorS
  toType spec.name typeF req dflt vOut false

/-- The descriptor a getter registration produces on each read
(lines 145-152): derive from a parent descriptor when `spec.type` is
one, otherwise clone the options through `toType`. -/
def extendGetterRead (spec : ExtSpec) : Descriptor :=
  match spec.typeS with
  | some (.desc parent) => extendWithParent parent spec
  | some (.bare tv) =>
    toType spec.name (some tv) spec.requiredS spec.defaultS spec.validatorS spec.validateM
  | none =>
    toType spec.name none spec.requiredS spec.defaultS spec.validatorS spec.validateM

/-- The own property names `VueTypes` starts with (its getters and
methods), against which `has(VueTypes, name)` checks (line 116). -/
def baseTypeNames : List String :=
  ["any", "func", "bool", "string", "number", "array", "object", "integer",
   "symbol", "extend", "custom", "oneOf", "instanceOf", "oneOfType", "arrayOf",
   "objectOf", "shape", "utils", "sensibleDefaults"]

/-- The extension registry: the namespace's own properties are the
base names plus the registered extensions. -/
structure Registry where
  added : List (String × ExtSpec)

def Registry.hasName (r : Registry) (nm : String) : Bool :=
  baseTypeNames.contains nm || (r.added.map Prod.fst).contains nm

/-- A single-spec `extend(props)` call (lines 108-170): a duplicate
name throws a `TypeError` before any mutation; otherwise the spec is
registered via `Object.defineProperty`. -/
def extend (r : Registry) (spec : ExtSpec) : Except JSError Registry :=
  if r.hasName spec.name then
    .error (.typeError ("[VueTypes error]: Type \"" ++ spec.name ++ "\" already defined"))
  else
    .ok ⟨r.added ++ [(spec.name, spec)]⟩

end VT

namespace VT

/-! ## Concrete environments used by closed evaluations -/

/-- A user environment whose every validator function returns `true`
and never warns or throws. -/
def env0 : UserEnv := fun _ _ => ([], some (.boolV true))

/-- A user environment whose every validator function throws. -/
def envThrow : UserEnv := fun _ _ => ([], none)

/-! ## Small unfolding lemmas -/

theorem toType_name (nm tf r df v vf) : (toType nm tf r df v vf).name = some nm := rfl

theorem toType_typeF (nm tf r df v vf) : (toType nm tf r df v vf).typeF = tf := rfl

theorem toType_required (nm tf r df v vf) : (toType nm tf r df v vf).required = r := rfl

theorem toType_defaultF (nm tf r df v vf) : (toType nm tf r df v vf).defaultF = df := rfl

theorem toType_validator (nm tf r df v vf) : (toType nm tf r df v vf).validator = v := rfl

theorem toType_validatable (nm tf r df v vf) : (toType nm tf r df v vf).validatable = vf := rfl

theorem setDefault_defaultF (d : Descriptor) (df) : (d.setDefault df).defaultF = df := by
  cases d; rfl

theorem setDefault_name (d : Descriptor) (df) : (d.setDefault df).name = d.name := by
  cases d; rfl

theorem setDefault_typeF (d : Descriptor) (df) : (d.setDefault df).typeF = d.typeF := by
  cases d; rfl

theorem setDefault_required (d : Descriptor) (df) : (d.setDefault df).required = d.required := by
  cases d; rfl

/-- The undefined short-circuit of `validateType` (utils lines
210-212): a descriptor with an own `type` that is neither `null` nor
the JS `undefined`, with falsy `required`, passes the value
`undefined` immediately — before the native check and before any
validator runs. -/
theorem vt_undef_shortcircuit (env : UserEnv) (d : Descriptor) (tv : TypeVal)
    (ht : d.typeF = some tv) (h1 : tv ≠ .tnull) (h2 : tv ≠ .tundef)
    (hr : truthyOptB d.required = false) (silent : Bool) (n : Nat) (s : WState) :
    step env (n + 1) (.vt (.desc d) .undef silent) s = .ok (.boolV true) s := by
  cases tv with
  | tnull => exact absurd rfl h1
  | tundef => exact absurd rfl h2
  | single c => simp [step, normalizeArg, ht, hr, isUndef]
  | tlist ms => simp [step, normalizeArg, ht, hr, isUndef]

/-- `null` is not treated as absent: against a descriptor with a
single-constructor `type` and falsy `required`, the value `null`
reaches the native check and fails it (no constructor check accepts
`null`), whatever validator the descriptor carries. -/
theorem vt_null_no_shortcircuit (env : UserEnv) (d : Descriptor) (c : Ctor)
    (ht : d.typeF = some (.single c)) (hr : truthyOptB d.required = false)
    (n : Nat) (s : WState) :
    step env (n + 1) (.vt (.desc d) .null true) s
      = .ok (.strV ((match d.name with | some nm => nm ++ " - " | none => "")
          ++ "value \"" ++ "null" ++ "\" should be of type \"" ++ ctorName c ++ "\"")) s := by
  have hns : nativeSingle c .null = false := by
    cases c <;> simp [nativeSingle, ctorName, isArrayV, isPlainObjectV, getNativeType, jsCtor]
  simp [step, normalizeArg, ht, hr, hns, isUndef, disp, dispAtom]

end VT

namespace VT

/-! ## Claim C1 -/

/-- C1 (counterexample): the claim says a non-required descriptor with
the unconstrained (`null`) type — `symbol` is one — passes the value
`undefined` before any custom-validator check.  In the code the
undefined short-circuit lives inside the `type`-checking branch, which
a `null`-type descriptor skips entirely, so `symbol`'s validator runs
on `undefined` and rejects it: loud validation of `undefined` against
the non-required `symbol` descriptor returns `false`, not a pass.
`oneOf([null])` (also `null`-typed) rejects `undefined` the same way. -/
theorem claim_C1_counterexample :
    symbolD.required = none ∧ symbolD.typeF = some .tnull ∧
    validateType env0 (.desc symbolD) .undef false = .ok (.boolV false) [[]] ∧
    validateType env0 (.desc (oneOf [.null])) .undef false
      = .ok (.boolV false) [["* oneOf - value should be one of \"\""]] :=
  ⟨rfl, rfl, rfl, rfl⟩

/-- C1 (amended): the undefined short-circuit holds for every
descriptor whose own `type` is present and neither `null` nor the JS
`undefined`: with falsy `required`, validating `undefined` returns
pass immediately, before the native check and before any validator
runs.  (For descriptors with no `type` or a `null` type the validator
does run on `undefined` — see the counterexample.)  `null` is not
treated as absent: against a single-constructor `type` it falls
through to the native check and fails it. -/
theorem claim_C1_amended (env : UserEnv) (d : Descriptor) (tv : TypeVal)
    (ht : d.typeF = some tv) (h1 : tv ≠ .tnull) (h2 : tv ≠ .tundef)
    (hr : truthyOptB d.required = false) :
    (∀ silent, validateType env (.desc d) .undef silent = .ok (.boolV true) [[]]) ∧
    (∀ c, tv = .single c →
      validateType env (.desc d) .null true
        = .ok (.strV ((match d.name with | some nm => nm ++ " - " | none => "")
            ++ "value \"" ++ "null" ++ "\" should be of type \"" ++ ctorName c ++ "\"")) [[]]) := by
  constructor
  · intro silent
    exact vt_undef_shortcircuit env d tv ht h1 h2 hr silent _ [[]]
  · intro c hc
    exact vt_null_no_shortcircuit env d c (hc ▸ ht) hr _ [[]]

/-- Witness for C1 (amended), at the `string` descriptor. -/
theorem claim_C1_witness :
    validateType env0 (.desc stringD) .undef false = .ok (.boolV true) [[]] ∧
    validateType env0 (.desc stringD) .null true
      = .ok (.strV ("string - " ++ "value \"" ++ "null" ++ "\" should be of type \"" ++ "String" ++ "\"")) [[]] := by
  have h := claim_C1_amended env0 stringD (.single .str) rfl (by decide) (by decide) rfl
  exact ⟨h.1 false, by simpa [ctorName] using h.2 .str rfl⟩

/-! ## Claim C2 (counterexample; the amended theorem follows the
soundness development below) -/

/-- C2 (counterexample): `validateType` is not total on its stated
domain — called on a (normalized) descriptor whose `type` own property
holds the JS value `undefined`, it throws a `TypeError` at validation
time (utils lines 205-209), e.g. `validateType(undefined, 0)`. -/
theorem claim_C2_counterexample :
    validateType env0 (.bare .tundef) (.numV 0) false
      = .thrown (.typeError "[VueTypes error]: Setting type to undefined is not allowed.") [[]] := rfl

/-! ## Claim C4 -/

/-- C4: the diagnostic-sink swap around validator invocation is *not*
save/restore-paired when the validator throws.  `validateType` swaps
the process `warn` for a buffering closure (one more frame on the sink
stack), and restores it only on the normal return path — there is no
try/finally (utils lines 251-258).  With a validator that throws, the
call propagates the exception while the buffering sink is still
installed (the sink stack still carries the buffer frame, so it
differs from the pre-call `[[]]`); the same call with a returning
validator does restore the sink.  The code therefore contradicts the
save/restore pairing the specification demands. -/
theorem claim_C4_sink_leak :
    validateType envThrow (.desc (custom 0)) (.numV 1) false = .thrown .userRaise [[], []] ∧
    ([[], []] : WState) ≠ [[]] ∧
    validateType env0 (.desc (custom 0)) (.numV 1) false = .ok (.boolV true) [[]] :=
  ⟨rfl, by decide, rfl⟩

/-! ## Claim C9 -/

/-- C9: `extend` is additive-only.  If the target name is already an
own property of the namespace (a base type or a previous extension),
the call throws a `TypeError` before any mutation — nothing is
returned, so every existing entry is untouched.  On a fresh name the
new entry is appended and all previous entries are preserved
verbatim. -/
theorem claim_C9_extend_additive (r : Registry) (spec : ExtSpec) :
    (r.hasName spec.name = true →
      extend r spec
        = .error (.typeError ("[VueTypes error]: Type \"" ++ spec.name ++ "\" already defined"))) ∧
    (∀ r', extend r spec = .ok r' →
      r.hasName spec.name = false ∧ r'.added = r.added ++ [(spec.name, spec)]) := by
  constructor
  · intro h
    simp [extend, h]
  · intro r' h
    by_cases hn : r.hasName spec.name
    · simp [extend, hn] at h
    · simp [extend, hn] at h
      exact ⟨by simpa using hn, by rw [← h]⟩

/-- Witness for C9: re-registering the base name "string" errors; a
fresh name "date" extends the registry additively. -/
theorem claim_C9_witness :
    extend ⟨[]⟩ ⟨"string", false, true, some (.bare (.single .str)), none, none, none⟩
      = .error (.typeError ("[VueTypes error]: Type \"" ++ "string" ++ "\" already defined")) ∧
    ∀ r', extend ⟨[]⟩ ⟨"date", false, true, some (.bare (.single (.cls 0))), none, none, none⟩ = .ok r' →
      r'.added = [("date", ⟨"date", false, true, some (.bare (.single (.cls 0))), none, none, none⟩)] := by
  refine ⟨(claim_C9_extend_additive ⟨[]⟩ _).1 (by decide), ?_⟩
  intro r' h
  have := ((claim_C9_extend_additive ⟨[]⟩ _).2 r' h).2
  simpa using this

/-! ## Claim C10 -/

/-- C10: `def`'s "no default currently set" test is by falsiness (the
`!this.default` on utils line 97).  With any falsy current `default`
(absent, `0`, the empty string, `false`, ...), `def(undefined)`
returns the descriptor unchanged and emits nothing; with a truthy
current `default` on a non-required descriptor carrying a native
single-constructor `type`, `def(undefined)` validates `undefined`
(which passes by the short-circuit) and overwrites the `default` own
property with `undefined`. -/
theorem claim_C10_def_falsiness (env : UserEnv) (d : Descriptor) :
    (defTruthy d.defaultF = false → defMethod env d .undef = .ok d []) ∧
    (∀ c, d.typeF = some (.single c) → truthyOptB d.required = false →
      defTruthy d.defaultF = true →
      defMethod env d .undef = .ok (d.setDefault (some (.val .undef))) []) := by
  constructor
  · intro h
    simp [defMethod, isUndef, h]
  · intro c ht hr hd
    have hv : validateType env (.desc d) .undef false = .ok (.boolV true) [[]] :=
      vt_undef_shortcircuit env d (.single c) ht (by simp) (by simp) hr false _ [[]]
    simp [defMethod, isUndef, hd, isFunctionV, hv, jsTruthy]

/-- Witness for C10: the `number` descriptor (no default) is returned
unchanged by `def(undefined)`; with default `1` installed,
`def(undefined)` overwrites the default with `undefined`. -/
theorem claim_C10_witness :
    defMethod env0 numberD .undef = .ok numberD [] ∧
    defMethod env0 (numberD.setDefault (some (.val (.numV 1)))) .undef
      = .ok ((numberD.setDefault (some (.val (.numV 1)))).setDefault (some (.val .undef))) [] := by
  refine ⟨(claim_C10_def_falsiness env0 numberD).1 rfl, ?_⟩
  exact (claim_C10_def_falsiness env0 (numberD.setDefault (some (.val (.numV 1))))).2
    .number rfl rfl rfl

end VT

namespace VT

/-! ## Claim C8 -/

/-- The behaviour claim C8 ascribes to `def(x)`, written from the
claim's words for comparison with `defMethod` (the translation of the
source): a function is stored verbatim without validation; any other
`x` is validated against the descriptor itself — on failure a
diagnostic is emitted and `default` is left unchanged, on success an
array/plain-object is wrapped in a fresh-shallow-copy factory and
anything else is stored verbatim. -/
def defClaimedSpec (env : UserEnv) (d : Descriptor) (x : JSVal) : DefOutcome :=
  if isFunctionV x then .ok (d.setDefault (some (.val x))) []
  else
    match validateType env (.desc d) x false with
    | .fuelOut => .fuelOut
    | .thrown e _ => .thrown e
    | .ok r s1 =>
      if ¬ jsTruthy r then
        .ok d (s1.headD [] ++ [dispName d ++ " - invalid default value: \"" ++ disp x ++ "\""])
      else
        match x with
        | .arrV xs => .ok (d.setDefault (some (.arrFactory xs))) (s1.headD [])
        | .objV fs => .ok (d.setDefault (some (.objFactory fs))) (s1.headD [])
        | _ => .ok (d.setDefault (some (.val x))) (s1.headD [])

/-- C8 (counterexample): the claim, universally over candidate
defaults `x`, misses the early return of utils line 97.  On the
non-required `number` descriptor with no current default,
`def(undefined)` per the claim validates `undefined` (which passes)
and stores it verbatim — creating an own `default` property holding
`undefined` — while the code returns the descriptor with no `default`
property at all.  The two results differ in the `default` field. -/
theorem claim_C8_counterexample :
    defMethod env0 numberD .undef = .ok numberD [] ∧
    defClaimedSpec env0 numberD .undef
      = .ok (numberD.setDefault (some (.val .undef))) [] ∧
    numberD.defaultF = none ∧
    (numberD.setDefault (some (.val .undef))).defaultF = some (.val .undef) ∧
    ¬ (defMethod env0 numberD .undef = defClaimedSpec env0 numberD .undef) := by
  refine ⟨rfl, rfl, rfl, rfl, ?_⟩
  intro h
  have h2 : (DefOutcome.ok numberD [] : DefOutcome)
      = .ok (numberD.setDefault (some (.val .undef))) [] := h
  cases h2

/-- C8 (amended): `def(x)` behaves exactly as the claim describes
except when `x` is `undefined` while the current `default` is falsy,
in which case the descriptor is returned unchanged with no diagnostic
and no validation (utils line 97). -/
theorem claim_C8_amended (env : UserEnv) (d : Descriptor) (x : JSVal) :
    defMethod env d x
      = if isUndef x ∧ ¬ defTruthy d.defaultF then .ok d []
        else defClaimedSpec env d x := by
  by_cases h : isUndef x = true ∧ ¬ defTruthy d.defaultF = true
  · simp [defMethod, h]
  · rw [if_neg h]
    rw [defMethod, if_neg h]
    rfl

end VT

namespace VT

/-! ## Claim C7 -/

/-- The step function of `oneOf`'s `allowedTypes` reduction. -/
def oneOfFoldF (ret : List Ctor) (v : JSVal) : List Ctor :=
  match jsCtor v with
  | none => ret
  | some c => if ret.contains c then ret else ret ++ [c]

theorem oneOfAllowed_eq_foldl (arr : List JSVal) :
    oneOfAllowed arr = arr.foldl oneOfFoldF [] := rfl

/-- Invariant of the `allowedTypes` fold: it appends to the
accumulator a duplicate-free, order-preserving selection of the
constructors of the non-null, non-undefined members not already
present. -/
theorem oneOfFold_spec (arr : List JSVal) : ∀ acc : List Ctor, ∃ extra : List Ctor,
    arr.foldl oneOfFoldF acc = acc ++ extra ∧
    extra.Sublist (arr.filterMap jsCtor) ∧
    (∀ c, c ∈ extra ↔ (c ∉ acc ∧ ∃ v ∈ arr, jsCtor v = some c)) ∧
    (acc.Nodup → (acc ++ extra).Nodup) := by
  induction arr with
  | nil =>
    intro acc
    exact ⟨[], by simp, by simp, by simp, by simp⟩
  | cons v rest ih =>
    intro acc
    cases hc : jsCtor v with
    | none =>
      obtain ⟨extra, h1, h2, h3, h4⟩ := ih acc
      have hf : oneOfFoldF acc v = acc := by simp [oneOfFoldF, hc]
      refine ⟨extra, ?_, ?_, ?_, h4⟩
      · rw [List.foldl_cons, hf]; exact h1
      · rw [List.filterMap_cons, hc]; exact h2
      · intro c
        rw [h3 c]
        constructor
        · rintro ⟨hmem, w, hw, hcw⟩
          exact ⟨hmem, w, List.mem_cons_of_mem _ hw, hcw⟩
        · rintro ⟨hmem, w, hw, hcw⟩
          rcases List.mem_cons.mp hw with rfl | hw'
          · rw [hc] at hcw; cases hcw
          · exact ⟨hmem, w, hw', hcw⟩
    | some c0 =>
      by_cases hin : c0 ∈ acc
      · obtain ⟨extra, h1, h2, h3, h4⟩ := ih acc
        have hf : oneOfFoldF acc v = acc := by
          simp [oneOfFoldF, hc, List.contains, List.elem_eq_mem, hin]
        refine ⟨extra, ?_, ?_, ?_, h4⟩
        · rw [List.foldl_cons, hf]; exact h1
        · rw [List.filterMap_cons, hc]
          exact h2.trans (List.sublist_cons_self c0 _)
        · intro c
          rw [h3 c]
          constructor
          · rintro ⟨hmem, w, hw, hcw⟩
            exact ⟨hmem, w, List.mem_cons_of_mem _ hw, hcw⟩
          · rintro ⟨hmem, w, hw, hcw⟩
            rcases List.mem_cons.mp hw with rfl | hw'
            · rw [hc] at hcw
              cases hcw
              exact absurd hin hmem
            · exact ⟨hmem, w, hw', hcw⟩
      · obtain ⟨extra, h1, h2, h3, h4⟩ := ih (acc ++ [c0])
        have hf : oneOfFoldF acc v = acc ++ [c0] := by
          simp [oneOfFoldF, hc, List.contains, List.elem_eq_mem, hin]
        refine ⟨c0 :: extra, ?_, ?_, ?_, ?_⟩
        · rw [List.foldl_cons, hf, h1]; simp
        · rw [List.filterMap_cons, hc]
          exact List.Sublist.cons₂ c0 h2
        · intro c
          constructor
          · intro hmem
            rcases List.mem_cons.mp hmem with rfl | hmem'
            · exact ⟨hin, v, List.mem_cons_self v rest, hc⟩
            · obtain ⟨hni, w, hw, hcw⟩ := (h3 c).mp hmem'
              have hni' : c ∉ acc := fun hca => hni (by simp [hca])
              exact ⟨hni', w, List.mem_cons_of_mem _ hw, hcw⟩
          · rintro ⟨hni, w, hw, hcw⟩
            rcases List.mem_cons.mp hw with rfl | hw'
            · rw [hc] at hcw
              exact List.mem_cons.mpr (Or.inl (Option.some.inj hcw).symm)
            · by_cases hcc : c = c0
              · exact List.mem_cons.mpr (Or.inl hcc)
              · refine List.mem_cons.mpr (Or.inr ((h3 c).mpr ⟨?_, w, hw', hcw⟩))
                simp [hni, hcc]
        · intro hacc
          have h5 : (acc ++ [c0]).Nodup := by
            rw [List.nodup_append]
            refine ⟨hacc, List.nodup_singleton c0, ?_⟩
            intro x hx hx'
            rw [List.mem_singleton] at hx'
            subst hx'
            exact hin hx
          have h6 := h4 h5
          simpa using h6

/-- `typeToCheck.type.some(...)` over constructor members never
throws; it reduces to the disjunction of the per-member checks. -/
theorem unionSome_mctor (cs : List Ctor) (v : JSVal) :
    unionSome (cs.map .mctor) v
      = .ok (cs.any (fun c => isUndef v || nativeSingle c v)) := by
  induction cs with
  | nil => rfl
  | cons c rest ih =>
    by_cases h : (isUndef v || nativeSingle c v) = true
    · simp [unionSome, memberPasses, h]
    · simp only [List.map_cons, unionSome, memberPasses, h]
      simp only [Bool.not_eq_true] at h
      simp [h, ih]

/-- One engine step on `oneOf`'s validator (index.js lines 204-208). -/
theorem rv_oneOfV (env : UserEnv) (self : Descriptor) (arr : List JSVal)
    (value : JSVal) (n : Nat) (s : WState) :
    step env (n + 1) (.rv self (.oneOfV arr) value) s
      = if arr.any (fun x => jsEq x value) then .ok (.boolV true) s
        else .ok (.boolV false) (warnEmit s (oneOfMsg arr)) := rfl

end VT

namespace VT

theorem oneOf_typeF (arr : List JSVal) :
    (oneOf arr).typeF = some (if (oneOfAllowed arr).isEmpty then .tnull
      else .tlist ((oneOfAllowed arr).map .mctor)) := rfl

theorem oneOf_validator (arr : List JSVal) :
    (oneOf arr).validator = some (.oneOfV arr) := rfl

theorem oneOf_required (arr : List JSVal) : (oneOf arr).required = none := rfl

theorem oneOf_name (arr : List JSVal) : (oneOf arr).name = some "oneOf" := rfl

theorem intercalate_singleton (sep m : String) : String.intercalate sep [m] = m := rfl

/-- Outcome of `oneOf`'s validator stage inside `validateType`: pass on
strict membership, otherwise the buffered `oneOf` diagnostic is
re-emitted (loud) or returned (silent). -/
def oneOfValidatorOutcome (arr : List JSVal) (v : JSVal) (silent : Bool) (s : WState) : Outcome :=
  if arr.any (fun x => jsEq x v) then .ok (.boolV true) s
  else if silent = false then .ok (.boolV false) (warnEmit s ("* " ++ oneOfMsg arr))
  else .ok (.strV ("* " ++ oneOfMsg arr)) s

theorem star_prepend_ne_empty (x : String) : (("* " ++ x) = "") = False := by
  apply eq_false
  intro h
  have h2 := congrArg String.length h
  simp [String.length_append] at h2
  exact absurd h2.1 (by decide)

/-- Full evaluation of `validateType` on a `oneOf` descriptor. -/
theorem vt_oneOf_eval (env : UserEnv) (arr : List JSVal) (v : JSVal)
    (silent : Bool) (n : Nat) (s : WState) :
    step env (n + 2) (.vt (.desc (oneOf arr)) v silent) s
      = if (oneOfAllowed arr).isEmpty then oneOfValidatorOutcome arr v silent s
        else if isUndef v then .ok (.boolV true) s
        else if (oneOfAllowed arr).any (fun c => nativeSingle c v) then
          oneOfValidatorOutcome arr v silent s
        else
          (if silent = false then
            .ok (.boolV false) (warnEmit s ("oneOf" ++ " - " ++ "value \"" ++ disp v
              ++ "\" should be of type \""
              ++ String.intercalate " or "
                  (((oneOfAllowed arr).map TypeMember.mctor).map memberDispName) ++ "\""))
          else
            .ok (.strV ("oneOf" ++ " - " ++ "value \"" ++ disp v
              ++ "\" should be of type \""
              ++ String.intercalate " or "
                  (((oneOfAllowed arr).map TypeMember.mctor).map memberDispName) ++ "\"")) s) := by
  by_cases hA : (oneOfAllowed arr).isEmpty
  · rw [if_pos hA]
    show step env ((n + 1) + 1) _ _ = _
    simp only [step, normalizeArg, oneOf_typeF, oneOf_name, oneOf_validator, if_pos hA]
    by_cases hm : arr.any (fun x => jsEq x v) = true
    · simp [hm, oneOfValidatorOutcome, jsTruthy, warnEmit]
    · simp only [Bool.not_eq_true] at hm
      simp [hm, oneOfValidatorOutcome, jsTruthy, warnEmit, intercalate_singleton,
        star_prepend_ne_empty]
  · rw [if_neg hA]
    by_cases hu : isUndef v
    · rw [if_pos hu]
      have hv : v = .undef := by cases v <;> simp [isUndef] at hu ⊢
      subst hv
      show step env ((n + 1) + 1) _ _ = _
      exact vt_undef_shortcircuit env (oneOf arr) _
        (by rw [oneOf_typeF, if_neg hA]) (by simp) (by simp)
        (by rw [oneOf_required]; rfl) silent (n + 1) s
    · rw [if_neg hu]
      simp only [Bool.not_eq_true] at hu
      have hun : unionSome ((oneOfAllowed arr).map .mctor) v
          = .ok ((oneOfAllowed arr).any (fun c => nativeSingle c v)) := by
        rw [unionSome_mctor]
        simp [hu]
      show step env ((n + 1) + 1) _ _ = _
      simp only [step, normalizeArg, oneOf_typeF, oneOf_name, oneOf_validator,
        oneOf_required, if_neg hA, hu, hun, truthyOptB]
      by_cases hnat : (oneOfAllowed arr).any (fun c => nativeSingle c v) = true
      · simp only [hnat]
        by_cases hm : arr.any (fun x => jsEq x v) = true
        · simp [hm, oneOfValidatorOutcome, jsTruthy, warnEmit]
        · simp only [Bool.not_eq_true] at hm
          simp [hm, oneOfValidatorOutcome, jsTruthy, warnEmit, intercalate_singleton,
            star_prepend_ne_empty]
      · simp only [Bool.not_eq_true] at hnat
        simp [hnat]

end VT

namespace VT

/-- C7 (counterexample): full validation against `oneOf(arr)` is not
equivalent to strict membership in `arr`.  Validating `undefined`
against the non-required `oneOf([1, 2])` hits the undefined
short-circuit of the engine (its `type` union is nonempty) and passes,
although `undefined` is not strictly equal to any literal; conversely
`null` is strictly equal to a literal of `oneOf([null, "a"])` but
fails, because the `type` union derived from the non-null members
(`[String]`) rejects `null` before the membership validator runs. -/
theorem claim_C7_counterexample :
    validateType env0 (.desc (oneOf [.numV 1, .numV 2])) .undef false = .ok (.boolV true) [[]] ∧
    ([.numV 1, .numV 2] : List JSVal).any (fun x => jsEq x .undef) = false ∧
    validateType env0 (.desc (oneOf [.null, .strV "a"])) .null false
      = .ok (.boolV false) [["oneOf - " ++ "value \"" ++ "null" ++ "\" should be of type \"" ++ "String" ++ "\""]] ∧
    ([.null, .strV "a"] : List JSVal).any (fun x => jsEq x .null) = true :=
  ⟨rfl, rfl, rfl, rfl⟩

/-- C7 (amended): `oneOf(arr)`'s *validator* returns true exactly on
strict membership in `arr`; *full* validation of the descriptor passes
iff the value is `undefined` (when the derived type union is nonempty,
via the undefined short-circuit), or the native union admits the value
(vacuously when the union is empty) and the value is a strict member.
The descriptor's `type` field is the order-preserving, de-duplicated
list of constructors of the non-null, non-undefined members of `arr`,
or the unconstrained `null` marker when no member qualifies. -/
theorem claim_C7_amended (env : UserEnv) (arr : List JSVal) (v : JSVal) :
    (∀ (self : Descriptor) (s : WState) (n : Nat),
      step env (n + 1) (.rv self (.oneOfV arr) v) s
        = if arr.any (fun x => jsEq x v) then .ok (.boolV true) s
          else .ok (.boolV false) (warnEmit s (oneOfMsg arr))) ∧
    ((validateType env (.desc (oneOf arr)) v true = .ok (.boolV true) [[]]) ↔
      ((oneOfAllowed arr ≠ [] ∧ v = .undef) ∨
       ((oneOfAllowed arr = [] ∨ unionSome ((oneOfAllowed arr).map .mctor) v = .ok true)
         ∧ arr.any (fun x => jsEq x v) = true))) ∧
    ((oneOf arr).typeF
       = some (if (oneOfAllowed arr).isEmpty then .tnull
               else .tlist ((oneOfAllowed arr).map .mctor))) ∧
    (oneOfAllowed arr).Nodup ∧
    (∀ c, c ∈ oneOfAllowed arr ↔ ∃ w ∈ arr, jsCtor w = some c) ∧
    (oneOfAllowed arr).Sublist (arr.filterMap jsCtor) := by
  obtain ⟨extra, h1, h2, h3, h4⟩ := oneOfFold_spec arr []
  have hOA : oneOfAllowed arr = extra := by
    rw [oneOfAllowed_eq_foldl, h1]; simp
  refine ⟨fun self s n => rfl, ?_, rfl, ?_, ?_, ?_⟩
  · -- the full-validation characterization
    have key : validateType env (.desc (oneOf arr)) v true
        = step env ((jsSize v + 3) + 2) (.vt (.desc (oneOf arr)) v true) [[]] := by
      show step env (reqSize (.vt (.desc (oneOf arr)) v true) + 1) _ _ = _
      congr 1
      show targSize (.desc (oneOf arr)) + jsSize v + 1 = (jsSize v + 3) + 2
      have ht : targSize (.desc (oneOf arr)) = 4 := rfl
      omega
    rw [key, vt_oneOf_eval]
    by_cases hA : (oneOfAllowed arr).isEmpty
    · have hAe : oneOfAllowed arr = [] := by
        cases h : oneOfAllowed arr with
        | nil => rfl
        | cons a l => rw [h] at hA; simp [List.isEmpty] at hA
      rw [if_pos hA]
      by_cases hm : arr.any (fun x => jsEq x v) = true
      · simp [oneOfValidatorOutcome, hm, hAe]
      · simp only [Bool.not_eq_true] at hm
        simp [oneOfValidatorOutcome, hm, hAe]
    · have hAe : oneOfAllowed arr ≠ [] := by
        intro h; rw [h] at hA; simp [List.isEmpty] at hA
      rw [if_neg hA]
      by_cases hu : isUndef v
      · have hv : v = .undef := by cases v <;> simp [isUndef] at hu ⊢
        subst hv
        simp [hu, hAe]
      · rw [if_neg hu]
        simp only [Bool.not_eq_true] at hu
        have hv : v ≠ .undef := by
          intro h; subst h; simp [isUndef] at hu
        have hun : unionSome ((oneOfAllowed arr).map .mctor) v
            = .ok ((oneOfAllowed arr).any (fun c => nativeSingle c v)) := by
          rw [unionSome_mctor]; simp [hu]
        by_cases hnat : (oneOfAllowed arr).any (fun c => nativeSingle c v) = true
        · rw [if_pos hnat]
          by_cases hm : arr.any (fun x => jsEq x v) = true
          · simp [oneOfValidatorOutcome, hm, hv, hun, hnat]
          · simp only [Bool.not_eq_true] at hm
            simp [oneOfValidatorOutcome, hm, hv, hun, hnat, hAe]
        · simp only [Bool.not_eq_true] at hnat
          simp [hnat, hv, hun, hAe]
  · rw [hOA]
    simpa using h4 List.nodup_nil
  · intro c
    rw [hOA, h3 c]
    simp
  · rw [hOA]
    exact h2

/-- Witness for C7 (amended), at `oneOf([0, 1, "s"])`. -/
theorem claim_C7_witness :
    validateType env0 (.desc (oneOf [.numV 0, .numV 1, .strV "s"])) (.numV 0) true
      = .ok (.boolV true) [[]] ∧
    (oneOf [.numV 0, .numV 1, .strV "s"]).typeF
      = some (.tlist [.mctor .number, .mctor .str]) := by
  refine ⟨(claim_C7_amended env0 [.numV 0, .numV 1, .strV "s"] (.numV 0)).2.1.mpr ?_, ?_⟩
  · exact Or.inr ⟨Or.inr rfl, rfl⟩
  · rfl

end VT

namespace VT

/-! ## Well-formedness

`validateType` can throw in exactly two ways: a `type` own property
(or a union member) holding the JS value `undefined`, and an exception
escaping a user validator (including the unguarded `.every` calls of
`arrayOf`/`objectOf` when their validators are invoked on values the
library's own native check would have filtered).  The predicates below
carve out the arguments free of those sources; every descriptor the
library builds over throw-free user validators satisfies them. -/

/-- The value guarantee established by a descriptor's native-check
stage before its validator runs. -/
inductive Guar where
  | gArr | gObj | gNone
deriving DecidableEq, Repr

def guarSat : Guar → JSVal → Prop
  | .gArr, v => isArrayV v = true
  | .gObj, v => isPlainObjectV v = true
  | .gNone, _ => True

def guarOf : Option TypeVal → Guar
  | some (.single .array) => .gArr
  | some (.single .object) => .gObj
  | _ => .gNone

/-- A `type` value free of the JS `undefined`. -/
def WfTV : TypeVal → Prop
  | .tundef => False
  | .tlist ms => .mundef ∉ ms
  | _ => True

mutual
/-- A well-formed `validateType` argument. -/
inductive WfArg (env : UserEnv) : TypeArg → Prop where
  | bare (tv : TypeVal) : WfTV tv → WfArg env (.bare tv)
  | desc (d : Descriptor) :
      (∀ tv, d.typeF = some tv → WfTV tv) →
      (∀ w, d.validator = some w → WfV env (guarOf d.typeF) w) →
      WfArg env (.desc d)

/-- A validator that cannot throw when invoked on a value enjoying the
guarantee `G`. -/
inductive WfV (env : UserEnv) : Guar → Validator → Prop where
  | user (G : Guar) (f : Nat) :
      (∀ args, (env f args).2 ≠ none) → WfV env G (.user f)
  | customV (G : Guar) (f : Nat) (m : String) :
      (∀ args, (env f args).2 ≠ none) → WfV env G (.customV f m)
  | oneOfV (G : Guar) (arr : List JSVal) : WfV env G (.oneOfV arr)
  | symbolV (G : Guar) : WfV env G .symbolV
  | integerV (G : Guar) : WfV env G .integerV
  | stubTrueV (G : Guar) : WfV env G .stubTrueV
  | arrayOfV (t : TypeArg) : WfArg env t → WfV env .gArr (.arrayOfV t)
  | objectOfVo (t : TypeArg) : WfArg env t → WfV env .gObj (.objectOfV t)
  | objectOfVa (t : TypeArg) : WfArg env t → WfV env .gArr (.objectOfV t)
  | shapeV (G : Guar) (fields : List (String × TypeArg)) :
      (∀ p ∈ fields, WfArg env p.2) → WfV env G (.shapeV fields)
  | oneOfTypeV (G : Guar) (cands : List TypeArg) :
      (∀ c ∈ cands, WfArg env c) → WfV env G (.oneOfTypeV cands)
  | andThen (G : Guar) (parent : Descriptor) (child : Validator) (pv : Validator) :
      parent.validator = some pv →
      WfV env G pv → WfV env G child → WfV env G (.andThen parent child)
end

/-- A well-formed engine request. -/
inductive WfReq (env : UserEnv) : Req → Prop where
  | vt (t : TypeArg) (value : JSVal) (silent : Bool) :
      WfArg env t → WfReq env (.vt t value silent)
  | rv (self : Descriptor) (v : Validator) (value : JSVal) (G : Guar) :
      WfV env G v → guarSat G value → WfReq env (.rv self v value)
  | everyLoud (t : TypeArg) (vals : List JSVal) :
      WfArg env t → WfReq env (.everyLoud t vals)
  | shapeIter (self : Descriptor) (fields : List (String × TypeArg))
      (rem : List (String × JSVal)) :
      (∀ p ∈ fields, WfArg env p.2) → WfReq env (.shapeIter self fields rem)
  | someCand (cands : List TypeArg) (value : JSVal) :
      (∀ c ∈ cands, WfArg env c) → WfReq env (.someCand cands value)

/-! ### Auxiliary lemmas for the soundness proof -/

theorem foldl_warnEmit (msgs : List String) : ∀ (hd : List String) (tl : WState),
    msgs.foldl warnEmit (hd :: tl) = (hd ++ msgs) :: tl := by
  induction msgs with
  | nil => intro hd tl; simp
  | cons m rest ih =>
    intro hd tl
    rw [List.foldl_cons]
    show List.foldl warnEmit ((hd ++ [m]) :: tl) rest = _
    rw [ih]
    simp

theorem jsSizeList_map_snd (fs : List (String × JSVal)) :
    jsSizeList (fs.map Prod.snd) = jsSizeFields fs := by
  induction fs with
  | nil => rfl
  | cons p rest ih =>
    cases p
    simp [jsSizeList, jsSizeFields, ih]

theorem unionSome_no_mundef (ms : List TypeMember) (h : TypeMember.mundef ∉ ms)
    (v : JSVal) : ∃ b, unionSome ms v = .ok b := by
  induction ms with
  | nil => exact ⟨false, rfl⟩
  | cons m rest ih =>
    have hm : m ≠ .mundef := fun he => h (he ▸ List.mem_cons_self m rest)
    have hrest : TypeMember.mundef ∉ rest := fun hr => h (List.mem_cons_of_mem m hr)
    cases m with
    | mnull => exact ⟨true, rfl⟩
    | mundef => exact absurd rfl hm
    | mctor c =>
      by_cases hc : (isUndef v || nativeSingle c v) = true
      · exact ⟨true, by simp [unionSome, memberPasses, hc]⟩
      · obtain ⟨b, hb⟩ := ih hrest
        exact ⟨b, by simp [unionSome, memberPasses, hc, hb]⟩

theorem guar_established (c : Ctor) (value : JSVal)
    (h : nativeSingle c value = true) :
    guarSat (guarOf (some (.single c))) value := by
  cases c <;> simp [guarOf, guarSat] <;> simpa [nativeSingle, ctorName] using h

theorem lookup_mem {fields : List (String × TypeArg)} {k : String} {ta : TypeArg}
    (h : List.lookup k fields = some ta) : (k, ta) ∈ fields := by
  induction fields with
  | nil => cases h
  | cons p rest ih =>
    obtain ⟨k', ta'⟩ := p
    cases hk : k == k' with
    | true =>
      simp only [List.lookup, hk] at h
      obtain rfl := Option.some.inj h
      have hkk : k = k' := eq_of_beq hk
      subst hkk
      exact List.mem_cons_self _ _
    | false =>
      simp only [List.lookup, hk] at h
      exact List.mem_cons_of_mem _ (ih h)

theorem fieldsSize_mem {fields : List (String × TypeArg)} {p : String × TypeArg}
    (h : p ∈ fields) : targSize p.2 < fieldsSize fields := by
  induction fields with
  | nil => cases h
  | cons q rest ih =>
    obtain ⟨k', ta'⟩ := q
    rcases List.mem_cons.mp h with rfl | h'
    · show targSize ta' < 1 + targSize ta' + fieldsSize rest
      omega
    · have := ih h'
      show targSize p.2 < 1 + targSize ta' + fieldsSize rest
      omega

theorem lookup_targSize {fields : List (String × TypeArg)} {k : String} {ta : TypeArg}
    (h : List.lookup k fields = some ta) : targSize ta < fieldsSize fields :=
  fieldsSize_mem (lookup_mem h)

theorem contains_lookup_isSome {fields : List (String × TypeArg)} {k : String}
    (h : (fields.map Prod.fst).contains k = true) :
    ∃ ta, List.lookup k fields = some ta := by
  induction fields with
  | nil => simp [List.contains] at h
  | cons p rest ih =>
    obtain ⟨k', ta'⟩ := p
    cases hk : k == k' with
    | true => exact ⟨ta', by simp only [List.lookup, hk]⟩
    | false =>
      simp only [List.lookup, hk]
      apply ih
      have hne : ¬ k = k' := fun he => by simp [he] at hk
      simp only [List.map_cons, List.contains, List.elem_eq_mem,
        decide_eq_true_eq] at h ⊢
      rcases List.mem_cons.mp h with he | h'
      · exact absurd he hne
      · exact h'

theorem targsSize_mem {cands : List TypeArg} {c : TypeArg} (h : c ∈ cands) :
    targSize c < targsSize cands := by
  induction cands with
  | nil => cases h
  | cons q rest ih =>
    rcases List.mem_cons.mp h with rfl | h'
    · show targSize c < 1 + targSize c + targsSize rest
      omega
    · have := ih h'
      show targSize c < 1 + targSize q + targsSize rest
      omega

theorem descSize_validator {d : Descriptor} {w : Validator}
    (h : d.validator = some w) : descSize d = 2 + valSize w := by
  cases d with
  | mk n t r df vo vf l =>
    cases vo with
    | none => cases h
    | some w' =>
      cases h
      rfl

theorem typeFallback_wf {d : Descriptor}
    (h : ∀ tv, d.typeF = some tv → WfTV tv) : WfTV (typeFallback d.typeF) := by
  cases ht : d.typeF with
  | none => trivial
  | some tv =>
    cases tv with
    | tnull => trivial
    | tundef => trivial
    | single c => exact h _ ht
    | tlist ms => exact h _ ht

theorem targSize_pos (t : TypeArg) : 1 ≤ targSize t := by
  cases t with
  | desc d => show 1 ≤ 1 + descSize d; omega
  | bare tv => exact le_refl 1

end VT

namespace VT

/-- Soundness of the engine on well-formed requests: the run returns a
value (it neither throws nor exhausts any fuel above the size bound),
the result is fuel-independent, and its only effect on the diagnostic
sink is to append a fixed batch of messages to the current sink's
target — in particular the sink stack below the current target is
untouched and the current sink reference is restored. -/
theorem step_sound (env : UserEnv) :
    ∀ (k : Nat) (req : Req), reqSize req = k → WfReq env req →
    ∃ (r : JSVal) (E : List String), ∀ (n : Nat), k < n →
      ∀ (hd : List String) (tl : WState),
        step env n req (hd :: tl) = .ok r ((hd ++ E) :: tl) := by
  intro k
  induction k using Nat.strong_induction_on with
  | _ k IH =>
  intro req hsz hwf
  subst hsz
  cases hwf with
  | vt t value silent hA =>
    cases hA with
    | bare tv hwtv =>
      cases tv with
      | tnull =>
        refine ⟨.boolV true, [], fun n hn hd tl => ?_⟩
        obtain ⟨m, rfl⟩ : ∃ m, n = m + 1 := ⟨n - 1, by omega⟩
        simp [step, normalizeArg, Descriptor.name, Descriptor.typeF, Descriptor.validator]
      | tundef => exact absurd hwtv (by simp [WfTV])
      | single c =>
        cases hu : isUndef value with
        | true =>
          refine ⟨.boolV true, [], fun n hn hd tl => ?_⟩
          obtain ⟨m, rfl⟩ : ∃ m, n = m + 1 := ⟨n - 1, by omega⟩
          simp [step, normalizeArg, Descriptor.name, Descriptor.typeF,
            Descriptor.required, truthyOptB, hu]
        | false =>
          cases hnat : nativeSingle c value with
          | true =>
            refine ⟨.boolV true, [], fun n hn hd tl => ?_⟩
            obtain ⟨m, rfl⟩ : ∃ m, n = m + 1 := ⟨n - 1, by omega⟩
            simp [step, normalizeArg, Descriptor.name, Descriptor.typeF,
              Descriptor.required, Descriptor.validator, truthyOptB, hu, hnat]
          | false =>
            cases hs : silent with
            | false =>
              refine ⟨.boolV false,
                ["" ++ "value \"" ++ disp value ++ "\" should be of type \""
                  ++ ctorName c ++ "\""], fun n hn hd tl => ?_⟩
              obtain ⟨m, rfl⟩ : ∃ m, n = m + 1 := ⟨n - 1, by omega⟩
              simp [step, normalizeArg, Descriptor.name, Descriptor.typeF,
                Descriptor.required, truthyOptB, hu, hnat, warnEmit]
            | true =>
              refine ⟨.strV ("" ++ "value \"" ++ disp value ++ "\" should be of type \""
                  ++ ctorName c ++ "\""), [], fun n hn hd tl => ?_⟩
              obtain ⟨m, rfl⟩ : ∃ m, n = m + 1 := ⟨n - 1, by omega⟩
              simp [step, normalizeArg, Descriptor.name, Descriptor.typeF,
                Descriptor.required, truthyOptB, hu, hnat]
      | tlist ms =>
        have hnm : TypeMember.mundef ∉ ms := hwtv
        cases hu : isUndef value with
        | true =>
          refine ⟨.boolV true, [], fun n hn hd tl => ?_⟩
          obtain ⟨m, rfl⟩ : ∃ m, n = m + 1 := ⟨n - 1, by omega⟩
          simp [step, normalizeArg, Descriptor.name, Descriptor.typeF,
            Descriptor.required, truthyOptB, hu]
        | false =>
          obtain ⟨b, hb⟩ := unionSome_no_mundef ms hnm value
          cases b with
          | true =>
            refine ⟨.boolV true, [], fun n hn hd tl => ?_⟩
            obtain ⟨m, rfl⟩ : ∃ m, n = m + 1 := ⟨n - 1, by omega⟩
            simp [step, normalizeArg, Descriptor.name, Descriptor.typeF,
              Descriptor.required, Descriptor.validator, truthyOptB, hu, hb]
          | false =>
            cases hs : silent with
            | false =>
              refine ⟨.boolV false,
                ["" ++ "value \"" ++ disp value ++ "\" should be of type \""
                  ++ String.intercalate " or " (ms.map memberDispName) ++ "\""],
                fun n hn hd tl => ?_⟩
              obtain ⟨m, rfl⟩ : ∃ m, n = m + 1 := ⟨n - 1, by omega⟩
              simp [step, normalizeArg, Descriptor.name, Descriptor.typeF,
                Descriptor.required, truthyOptB, hu, hb, warnEmit]
            | true =>
              refine ⟨.strV ("" ++ "value \"" ++ disp value ++ "\" should be of type \""
                  ++ String.intercalate " or " (ms.map memberDispName) ++ "\""), [],
                fun n hn hd tl => ?_⟩
              obtain ⟨m, rfl⟩ : ∃ m, n = m + 1 := ⟨n - 1, by omega⟩
              simp [step, normalizeArg, Descriptor.name, Descriptor.typeF,
                Descriptor.required, truthyOptB, hu, hb]
    | desc d htf hv =>
      have hvalidatorStage :
          guarSat (guarOf d.typeF) value →
          ∀ w, d.validator = some w →
          ∃ (rv : JSVal) (Ev : List String), ∀ (n : Nat),
            reqSize (.rv d w value) < n →
            ∀ (hd : List String) (tl : WState),
              step env n (.rv d w value) (hd :: tl) = .ok rv ((hd ++ Ev) :: tl) := by
        intro hgs w hvd
        have hszlt : reqSize (.rv d w value) < reqSize (.vt (.desc d) value silent) := by
          show valSize w + jsSize value < targSize (.desc d) + jsSize value
          have h2 := descSize_validator hvd
          show valSize w + jsSize value < 1 + descSize d + jsSize value
          omega
        exact IH _ hszlt _ rfl (WfReq.rv d w value (guarOf d.typeF) (hv w hvd) hgs)
      cases hT : d.typeF with
      | none =>
        cases hvd : d.validator with
        | none =>
          refine ⟨.boolV true, [], fun n hn hd tl => ?_⟩
          obtain ⟨m, rfl⟩ : ∃ m, n = m + 1 := ⟨n - 1, by omega⟩
          simp [step, normalizeArg, hT, hvd]
        | some w =>
          have hgs : guarSat (guarOf d.typeF) value := by rw [hT]; trivial
          obtain ⟨rv, Ev, hIHv⟩ := hvalidatorStage hgs w hvd
          have hszlt : valSize w + jsSize value < targSize (TypeArg.desc d) + jsSize value := by
            have h2 := descSize_validator hvd
            show valSize w + jsSize value < 1 + descSize d + jsSize value
            omega
          cases htr : jsTruthy rv with
          | true =>
            refine ⟨rv, [], fun n hn hd tl => ?_⟩
            obtain ⟨m, rfl⟩ : ∃ m, n = m + 1 := ⟨n - 1, by omega⟩
            have hin := hIHv m (by
                show valSize w + jsSize value < m
                have hn2 : targSize (TypeArg.desc d) + jsSize value < m + 1 := hn
                omega) [] (hd :: tl)
            simp [step, normalizeArg, hT, hvd, hin, htr]
          | false =>
            cases hEv : Ev.isEmpty with
            | true =>
              have hEnil : Ev = [] := by
                cases Ev with
                | nil => rfl
                | cons a l => simp [List.isEmpty] at hEv
              subst hEnil
              cases hs : silent with
              | false =>
                refine ⟨rv, [], fun n hn hd tl => ?_⟩
                obtain ⟨m, rfl⟩ : ∃ m, n = m + 1 := ⟨n - 1, by omega⟩
                have hin := hIHv m (by
                show valSize w + jsSize value < m
                have hn2 : targSize (TypeArg.desc d) + jsSize value < m + 1 := hn
                omega) [] (hd :: tl)
                simp [step, normalizeArg, hT, hvd, hin, htr]
              | true =>
                refine ⟨.strV "", [], fun n hn hd tl => ?_⟩
                obtain ⟨m, rfl⟩ : ∃ m, n = m + 1 := ⟨n - 1, by omega⟩
                have hin := hIHv m (by
                show valSize w + jsSize value < m
                have hn2 : targSize (TypeArg.desc d) + jsSize value < m + 1 := hn
                omega) [] (hd :: tl)
                simp [step, normalizeArg, hT, hvd, hin, htr]
            | false =>
              cases hs : silent with
              | false =>
                refine ⟨rv, ["* " ++ String.intercalate "\n * " Ev],
                  fun n hn hd tl => ?_⟩
                obtain ⟨m, rfl⟩ : ∃ m, n = m + 1 := ⟨n - 1, by omega⟩
                have hin := hIHv m (by
                show valSize w + jsSize value < m
                have hn2 : targSize (TypeArg.desc d) + jsSize value < m + 1 := hn
                omega) [] (hd :: tl)
                simp [step, normalizeArg, hT, hvd, hin, htr, hEv,
                  star_prepend_ne_empty, warnEmit]
              | true =>
                refine ⟨.strV ("* " ++ String.intercalate "\n * " Ev), [],
                  fun n hn hd tl => ?_⟩
                obtain ⟨m, rfl⟩ : ∃ m, n = m + 1 := ⟨n - 1, by omega⟩
                have hin := hIHv m (by
                show valSize w + jsSize value < m
                have hn2 : targSize (TypeArg.desc d) + jsSize value < m + 1 := hn
                omega) [] (hd :: tl)
                simp [step, normalizeArg, hT, hvd, hin, htr, hEv]
      | some tv =>
        cases tv with
        | tundef => exact absurd (htf _ hT) (by simp [WfTV])
        | tnull =>
          cases hvd : d.validator with
          | none =>
            refine ⟨.boolV true, [], fun n hn hd tl => ?_⟩
            obtain ⟨m, rfl⟩ : ∃ m, n = m + 1 := ⟨n - 1, by omega⟩
            simp [step, normalizeArg, hT, hvd]
          | some w =>
            have hgs : guarSat (guarOf d.typeF) value := by rw [hT]; trivial
            obtain ⟨rv, Ev, hIHv⟩ := hvalidatorStage hgs w hvd
            have hszlt : valSize w + jsSize value < targSize (TypeArg.desc d) + jsSize value := by
              have h2 := descSize_validator hvd
              show valSize w + jsSize value < 1 + descSize d + jsSize value
              omega
            cases htr : jsTruthy rv with
            | true =>
              refine ⟨rv, [], fun n hn hd tl => ?_⟩
              obtain ⟨m, rfl⟩ : ∃ m, n = m + 1 := ⟨n - 1, by omega⟩
              have hin := hIHv m (by
                show valSize w + jsSize value < m
                have hn2 : targSize (TypeArg.desc d) + jsSize value < m + 1 := hn
                omega) [] (hd :: tl)
              simp [step, normalizeArg, hT, hvd, hin, htr]
            | false =>
              cases hEv : Ev.isEmpty with
              | true =>
                have hEnil : Ev = [] := by
                  cases Ev with
                  | nil => rfl
                  | cons a l => simp [List.isEmpty] at hEv
                subst hEnil
                cases hs : silent with
                | false =>
                  refine ⟨rv, [], fun n hn hd tl => ?_⟩
                  obtain ⟨m, rfl⟩ : ∃ m, n = m + 1 := ⟨n - 1, by omega⟩
                  have hin := hIHv m (by
                show valSize w + jsSize value < m
                have hn2 : targSize (TypeArg.desc d) + jsSize value < m + 1 := hn
                omega) [] (hd :: tl)
                  simp [step, normalizeArg, hT, hvd, hin, htr]
                | true =>
                  refine ⟨.strV "", [], fun n hn hd tl => ?_⟩
                  obtain ⟨m, rfl⟩ : ∃ m, n = m + 1 := ⟨n - 1, by omega⟩
                  have hin := hIHv m (by
                show valSize w + jsSize value < m
                have hn2 : targSize (TypeArg.desc d) + jsSize value < m + 1 := hn
                omega) [] (hd :: tl)
                  simp [step, normalizeArg, hT, hvd, hin, htr]
              | false =>
                cases hs : silent with
                | false =>
                  refine ⟨rv, ["* " ++ String.intercalate "\n * " Ev],
                    fun n hn hd tl => ?_⟩
                  obtain ⟨m, rfl⟩ : ∃ m, n = m + 1 := ⟨n - 1, by omega⟩
                  have hin := hIHv m (by
                show valSize w + jsSize value < m
                have hn2 : targSize (TypeArg.desc d) + jsSize value < m + 1 := hn
                omega) [] (hd :: tl)
                  simp [step, normalizeArg, hT, hvd, hin, htr, hEv,
                    star_prepend_ne_empty, warnEmit]
                | true =>
                  refine ⟨.strV ("* " ++ String.intercalate "\n * " Ev), [],
                    fun n hn hd tl => ?_⟩
                  obtain ⟨m, rfl⟩ : ∃ m, n = m + 1 := ⟨n - 1, by omega⟩
                  have hin := hIHv m (by
                show valSize w + jsSize value < m
                have hn2 : targSize (TypeArg.desc d) + jsSize value < m + 1 := hn
                omega) [] (hd :: tl)
                  simp [step, normalizeArg, hT, hvd, hin, htr, hEv]
        | single c =>
          by_cases hsc : (truthyOptB d.required = false ∧ isUndef value = true)
          · refine ⟨.boolV true, [], fun n hn hd tl => ?_⟩
            obtain ⟨m, rfl⟩ : ∃ m, n = m + 1 := ⟨n - 1, by omega⟩
            simp [step, normalizeArg, hT, hsc]
          · cases hnat : nativeSingle c value with
            | false =>
              cases hs : silent with
              | false =>
                refine ⟨.boolV false,
                  [(match d.name with | some nm => nm ++ " - " | none => "")
                    ++ "value \"" ++ disp value ++ "\" should be of type \""
                    ++ ctorName c ++ "\""], fun n hn hd tl => ?_⟩
                obtain ⟨m, rfl⟩ : ∃ m, n = m + 1 := ⟨n - 1, by omega⟩
                simp [step, normalizeArg, hT, hsc, hnat, warnEmit]
              | true =>
                refine ⟨.strV ((match d.name with | some nm => nm ++ " - " | none => "")
                    ++ "value \"" ++ disp value ++ "\" should be of type \""
                    ++ ctorName c ++ "\""), [], fun n hn hd tl => ?_⟩
                obtain ⟨m, rfl⟩ : ∃ m, n = m + 1 := ⟨n - 1, by omega⟩
                simp [step, normalizeArg, hT, hsc, hnat]
            | true =>
              have hgs : guarSat (guarOf d.typeF) value := by
                rw [hT]; exact guar_established c value hnat
              cases hvd : d.validator with
              | none =>
                refine ⟨.boolV true, [], fun n hn hd tl => ?_⟩
                obtain ⟨m, rfl⟩ : ∃ m, n = m + 1 := ⟨n - 1, by omega⟩
                simp [step, normalizeArg, hT, hsc, hnat, hvd]
              | some w =>
                obtain ⟨rv, Ev, hIHv⟩ := hvalidatorStage hgs w hvd
                have hszlt : valSize w + jsSize value < targSize (TypeArg.desc d) + jsSize value := by
                  have h2 := descSize_validator hvd
                  show valSize w + jsSize value < 1 + descSize d + jsSize value
                  omega
                cases htr : jsTruthy rv with
                | true =>
                  refine ⟨rv, [], fun n hn hd tl => ?_⟩
                  obtain ⟨m, rfl⟩ : ∃ m, n = m + 1 := ⟨n - 1, by omega⟩
                  have hin := hIHv m (by
                show valSize w + jsSize value < m
                have hn2 : targSize (TypeArg.desc d) + jsSize value < m + 1 := hn
                omega) [] (hd :: tl)
                  simp [step, normalizeArg, hT, hsc, hnat, hvd, hin, htr]
                | false =>
                  cases hEv : Ev.isEmpty with
                  | true =>
                    have hEnil : Ev = [] := by
                      cases Ev with
                      | nil => rfl
                      | cons a l => simp [List.isEmpty] at hEv
                    subst hEnil
                    cases hs : silent with
                    | false =>
                      refine ⟨rv, [], fun n hn hd tl => ?_⟩
                      obtain ⟨m, rfl⟩ : ∃ m, n = m + 1 := ⟨n - 1, by omega⟩
                      have hin := hIHv m (by
                show valSize w + jsSize value < m
                have hn2 : targSize (TypeArg.desc d) + jsSize value < m + 1 := hn
                omega) [] (hd :: tl)
                      simp [step, normalizeArg, hT, hsc, hnat, hvd, hin, htr]
                    | true =>
                      refine ⟨.strV "", [], fun n hn hd tl => ?_⟩
                      obtain ⟨m, rfl⟩ : ∃ m, n = m + 1 := ⟨n - 1, by omega⟩
                      have hin := hIHv m (by
                show valSize w + jsSize value < m
                have hn2 : targSize (TypeArg.desc d) + jsSize value < m + 1 := hn
                omega) [] (hd :: tl)
                      simp [step, normalizeArg, hT, hsc, hnat, hvd, hin, htr]
                  | false =>
                    cases hs : silent with
                    | false =>
                      refine ⟨rv, ["* " ++ String.intercalate "\n * " Ev],
                        fun n hn hd tl => ?_⟩
                      obtain ⟨m, rfl⟩ : ∃ m, n = m + 1 := ⟨n - 1, by omega⟩
                      have hin := hIHv m (by
                show valSize w + jsSize value < m
                have hn2 : targSize (TypeArg.desc d) + jsSize value < m + 1 := hn
                omega) [] (hd :: tl)
                      simp [step, normalizeArg, hT, hsc, hnat, hvd, hin, htr, hEv,
                        star_prepend_ne_empty, warnEmit]
                    | true =>
                      refine ⟨.strV ("* " ++ String.intercalate "\n * " Ev), [],
                        fun n hn hd tl => ?_⟩
                      obtain ⟨m, rfl⟩ : ∃ m, n = m + 1 := ⟨n - 1, by omega⟩
                      have hin := hIHv m (by
                show valSize w + jsSize value < m
                have hn2 : targSize (TypeArg.desc d) + jsSize value < m + 1 := hn
                omega) [] (hd :: tl)
                      simp [step, normalizeArg, hT, hsc, hnat, hvd, hin, htr, hEv]
        | tlist ms =>
          have hnm : TypeMember.mundef ∉ ms := htf _ hT
          by_cases hsc : (truthyOptB d.required = false ∧ isUndef value = true)
          · refine ⟨.boolV true, [], fun n hn hd tl => ?_⟩
            obtain ⟨m, rfl⟩ : ∃ m, n = m + 1 := ⟨n - 1, by omega⟩
            simp [step, normalizeArg, hT, hsc]
          · obtain ⟨b, hb⟩ := unionSome_no_mundef ms hnm value
            cases b with
            | false =>
              cases hs : silent with
              | false =>
                refine ⟨.boolV false,
                  [(match d.name with | some nm => nm ++ " - " | none => "")
                    ++ "value \"" ++ disp value ++ "\" should be of type \""
                    ++ String.intercalate " or " (ms.map memberDispName) ++ "\""],
                  fun n hn hd tl => ?_⟩
                obtain ⟨m, rfl⟩ : ∃ m, n = m + 1 := ⟨n - 1, by omega⟩
                simp [step, normalizeArg, hT, hsc, hb, warnEmit]
              | true =>
                refine ⟨.strV ((match d.name with | some nm => nm ++ " - " | none => "")
                    ++ "value \"" ++ disp value ++ "\" should be of type \""
                    ++ String.intercalate " or " (ms.map memberDispName) ++ "\""), [],
                  fun n hn hd tl => ?_⟩
                obtain ⟨m, rfl⟩ : ∃ m, n = m + 1 := ⟨n - 1, by omega⟩
                simp [step, normalizeArg, hT, hsc, hb]
            | true =>
              have hgs : guarSat (guarOf d.typeF) value := by rw [hT]; trivial
              cases hvd : d.validator with
              | none =>
                refine ⟨.boolV true, [], fun n hn hd tl => ?_⟩
                obtain ⟨m, rfl⟩ : ∃ m, n = m + 1 := ⟨n - 1, by omega⟩
                simp [step, normalizeArg, hT, hsc, hb, hvd]
              | some w =>
                obtain ⟨rv, Ev, hIHv⟩ := hvalidatorStage hgs w hvd
                have hszlt : valSize w + jsSize value < targSize (TypeArg.desc d) + jsSize value := by
                  have h2 := descSize_validator hvd
                  show valSize w + jsSize value < 1 + descSize d + jsSize value
                  omega
                cases htr : jsTruthy rv with
                | true =>
                  refine ⟨rv, [], fun n hn hd tl => ?_⟩
                  obtain ⟨m, rfl⟩ : ∃ m, n = m + 1 := ⟨n - 1, by omega⟩
                  have hin := hIHv m (by
                show valSize w + jsSize value < m
                have hn2 : targSize (TypeArg.desc d) + jsSize value < m + 1 := hn
                omega) [] (hd :: tl)
                  simp [step, normalizeArg, hT, hsc, hb, hvd, hin, htr]
                | false =>
                  cases hEv : Ev.isEmpty with
                  | true =>
                    have hEnil : Ev = [] := by
                      cases Ev with
                      | nil => rfl
                      | cons a l => simp [List.isEmpty] at hEv
                    subst hEnil
                    cases hs : silent with
                    | false =>
                      refine ⟨rv, [], fun n hn hd tl => ?_⟩
                      obtain ⟨m, rfl⟩ : ∃ m, n = m + 1 := ⟨n - 1, by omega⟩
                      have hin := hIHv m (by
                show valSize w + jsSize value < m
                have hn2 : targSize (TypeArg.desc d) + jsSize value < m + 1 := hn
                omega) [] (hd :: tl)
                      simp [step, normalizeArg, hT, hsc, hb, hvd, hin, htr]
                    | true =>
                      refine ⟨.strV "", [], fun n hn hd tl => ?_⟩
                      obtain ⟨m, rfl⟩ : ∃ m, n = m + 1 := ⟨n - 1, by omega⟩
                      have hin := hIHv m (by
                show valSize w + jsSize value < m
                have hn2 : targSize (TypeArg.desc d) + jsSize value < m + 1 := hn
                omega) [] (hd :: tl)
                      simp [step, normalizeArg, hT, hsc, hb, hvd, hin, htr]
                  | false =>
                    cases hs : silent with
                    | false =>
                      refine ⟨rv, ["* " ++ String.intercalate "\n * " Ev],
                        fun n hn hd tl => ?_⟩
                      obtain ⟨m, rfl⟩ : ∃ m, n = m + 1 := ⟨n - 1, by omega⟩
                      have hin := hIHv m (by
                show valSize w + jsSize value < m
                have hn2 : targSize (TypeArg.desc d) + jsSize value < m + 1 := hn
                omega) [] (hd :: tl)
                      simp [step, normalizeArg, hT, hsc, hb, hvd, hin, htr, hEv,
                        star_prepend_ne_empty, warnEmit]
                    | true =>
                      refine ⟨.strV ("* " ++ String.intercalate "\n * " Ev), [],
                        fun n hn hd tl => ?_⟩
                      obtain ⟨m, rfl⟩ : ∃ m, n = m + 1 := ⟨n - 1, by omega⟩
                      have hin := hIHv m (by
                show valSize w + jsSize value < m
                have hn2 : targSize (TypeArg.desc d) + jsSize value < m + 1 := hn
                omega) [] (hd :: tl)
                      simp [step, normalizeArg, hT, hsc, hb, hvd, hin, htr, hEv]
  | rv self w value G hwv hgs =>
    cases hwv with
    | user G f hnt =>
      cases hres : (env f [value]).2 with
      | none => exact absurd hres (hnt _)
      | some rv =>
        refine ⟨rv, (env f [value]).1, fun n hn hd tl => ?_⟩
        obtain ⟨m, rfl⟩ : ∃ m, n = m + 1 := ⟨n - 1, by omega⟩
        simp [step, hres, foldl_warnEmit]
    | customV G f msg hnt =>
      cases hres : (env f [value]).2 with
      | none => exact absurd hres (hnt _)
      | some rv =>
        cases htr : jsTruthy rv with
        | true =>
          refine ⟨rv, (env f [value]).1, fun n hn hd tl => ?_⟩
          obtain ⟨m, rfl⟩ : ∃ m, n = m + 1 := ⟨n - 1, by omega⟩
          simp [step, hres, htr, foldl_warnEmit]
        | false =>
          refine ⟨rv, (env f [value]).1 ++ [dispName self ++ " - " ++ msg],
            fun n hn hd tl => ?_⟩
          obtain ⟨m, rfl⟩ : ∃ m, n = m + 1 := ⟨n - 1, by omega⟩
          simp [step, hres, htr, foldl_warnEmit, warnEmit, List.append_assoc]
    | oneOfV G arr =>
      cases hm : arr.any (fun x => jsEq x value) with
      | true =>
        refine ⟨.boolV true, [], fun n hn hd tl => ?_⟩
        obtain ⟨m, rfl⟩ : ∃ m, n = m + 1 := ⟨n - 1, by omega⟩
        simp [step, hm]
      | false =>
        refine ⟨.boolV false, [oneOfMsg arr], fun n hn hd tl => ?_⟩
        obtain ⟨m, rfl⟩ : ∃ m, n = m + 1 := ⟨n - 1, by omega⟩
        simp [step, hm, warnEmit]
    | symbolV G =>
      refine ⟨.boolV (match value with | .symV _ => true | _ => false), [],
        fun n hn hd tl => ?_⟩
      obtain ⟨m, rfl⟩ : ∃ m, n = m + 1 := ⟨n - 1, by omega⟩
      cases value <;> simp [step]
    | integerV G =>
      refine ⟨.boolV (match value with | .numV _ => true | _ => false), [],
        fun n hn hd tl => ?_⟩
      obtain ⟨m, rfl⟩ : ∃ m, n = m + 1 := ⟨n - 1, by omega⟩
      cases value <;> simp [step]
    | stubTrueV G =>
      refine ⟨.boolV true, [], fun n hn hd tl => ?_⟩
      obtain ⟨m, rfl⟩ : ∃ m, n = m + 1 := ⟨n - 1, by omega⟩
      simp [step]
    | arrayOfV t hwt =>
      obtain ⟨xs, rfl⟩ : ∃ xs, value = JSVal.arrV xs := by
        cases value <;> first
          | exact ⟨_, rfl⟩
          | simp [guarSat, isArrayV] at hgs
      have hszlt : reqSize (.everyLoud t xs) < reqSize (.rv self (.arrayOfV t) (.arrV xs)) := by
        show targSize t + jsSizeList xs < valSize (.arrayOfV t) + jsSize (.arrV xs)
        show targSize t + jsSizeList xs < (1 + targSize t) + (1 + jsSizeList xs)
        omega
      obtain ⟨rv, Ev, hIH1⟩ := IH _ hszlt _ rfl (WfReq.everyLoud t xs hwt)
      cases htr : jsTruthy rv with
      | true =>
        refine ⟨.boolV true, Ev, fun n hn hd tl => ?_⟩
        obtain ⟨m, rfl⟩ : ∃ m, n = m + 1 := ⟨n - 1, by omega⟩
        have hin := hIH1 m (by omega) hd tl
        simp [step, hin, htr]
      | false =>
        refine ⟨.boolV false,
          Ev ++ ["arrayOf - value must be an array of \"" ++ getTypeDisp t ++ "\""],
          fun n hn hd tl => ?_⟩
        obtain ⟨m, rfl⟩ : ∃ m, n = m + 1 := ⟨n - 1, by omega⟩
        have hin := hIH1 m (by omega) hd tl
        simp [step, hin, htr, warnEmit, List.append_assoc]
    | objectOfVo t hwt =>
      obtain ⟨fs, rfl⟩ : ∃ fs, value = JSVal.objV fs := by
        cases value <;> first
          | exact ⟨_, rfl⟩
          | simp [guarSat, isPlainObjectV] at hgs
      have hszlt : reqSize (.everyLoud t (fs.map Prod.snd))
          < reqSize (.rv self (.objectOfV t) (.objV fs)) := by
        show targSize t + jsSizeList (fs.map Prod.snd)
          < valSize (.objectOfV t) + jsSize (.objV fs)
        rw [jsSizeList_map_snd]
        show targSize t + jsSizeFields fs < (1 + targSize t) + (1 + jsSizeFields fs)
        omega
      obtain ⟨rv, Ev, hIH1⟩ := IH _ hszlt _ rfl (WfReq.everyLoud t (fs.map Prod.snd) hwt)
      cases htr : jsTruthy rv with
      | true =>
        refine ⟨.boolV true, Ev, fun n hn hd tl => ?_⟩
        obtain ⟨m, rfl⟩ : ∃ m, n = m + 1 := ⟨n - 1, by omega⟩
        have hin := hIH1 m (by omega) hd tl
        simp [step, jsOwnValues, hin, htr]
      | false =>
        refine ⟨.boolV false,
          Ev ++ ["objectOf - value must be an object of \"" ++ getTypeDisp t ++ "\""],
          fun n hn hd tl => ?_⟩
        obtain ⟨m, rfl⟩ : ∃ m, n = m + 1 := ⟨n - 1, by omega⟩
        have hin := hIH1 m (by omega) hd tl
        simp [step, jsOwnValues, hin, htr, warnEmit, List.append_assoc]
    | objectOfVa t hwt =>
      obtain ⟨xs, rfl⟩ : ∃ xs, value = JSVal.arrV xs := by
        cases value <;> first
          | exact ⟨_, rfl⟩
          | simp [guarSat, isArrayV] at hgs
      have hszlt : reqSize (.everyLoud t xs) < reqSize (.rv self (.objectOfV t) (.arrV xs)) := by
        show targSize t + jsSizeList xs < valSize (.objectOfV t) + jsSize (.arrV xs)
        show targSize t + jsSizeList xs < (1 + targSize t) + (1 + jsSizeList xs)
        omega
      obtain ⟨rv, Ev, hIH1⟩ := IH _ hszlt _ rfl (WfReq.everyLoud t xs hwt)
      cases htr : jsTruthy rv with
      | true =>
        refine ⟨.boolV true, Ev, fun n hn hd tl => ?_⟩
        obtain ⟨m, rfl⟩ : ∃ m, n = m + 1 := ⟨n - 1, by omega⟩
        have hin := hIH1 m (by omega) hd tl
        simp [step, jsOwnValues, hin, htr]
      | false =>
        refine ⟨.boolV false,
          Ev ++ ["objectOf - value must be an object of \"" ++ getTypeDisp t ++ "\""],
          fun n hn hd tl => ?_⟩
        obtain ⟨m, rfl⟩ : ∃ m, n = m + 1 := ⟨n - 1, by omega⟩
        have hin := hIH1 m (by omega) hd tl
        simp [step, jsOwnValues, hin, htr, warnEmit, List.append_assoc]
    | shapeV G fields hwfs =>
      cases hpo : isPlainObjectV value with
      | false =>
        refine ⟨.boolV false, [], fun n hn hd tl => ?_⟩
        obtain ⟨m, rfl⟩ : ∃ m, n = m + 1 := ⟨n - 1, by omega⟩
        simp [step, hpo]
      | true =>
        obtain ⟨fs, rfl⟩ : ∃ fs, value = JSVal.objV fs := by
          cases value <;> simp [isPlainObjectV] at hpo ⊢
        by_cases hmc : ((fields.filter (fun p => isRequiredField p.2)).map Prod.fst ≠ []
            ∧ ((fields.filter (fun p => isRequiredField p.2)).map Prod.fst).filter
                (fun k => ¬ (fs.map Prod.fst).contains k) ≠ [])
        · refine ⟨.boolV false,
            [shapeMissingMsg (((fields.filter (fun p => isRequiredField p.2)).map Prod.fst).filter
              (fun k => ¬ (fs.map Prod.fst).contains k))], fun n hn hd tl => ?_⟩
          obtain ⟨m, rfl⟩ : ∃ m, n = m + 1 := ⟨n - 1, by omega⟩
          simp only [step, hpo, objFieldsOf]
          rw [if_pos hmc]
          simp [warnEmit]
        · have hszlt : reqSize (.shapeIter self fields fs)
              < reqSize (.rv self (.shapeV fields) (.objV fs)) := by
            show fieldsSize fields + jsSizeFields fs
              < valSize (.shapeV fields) + jsSize (.objV fs)
            show fieldsSize fields + jsSizeFields fs
              < (1 + fieldsSize fields) + (1 + jsSizeFields fs)
            omega
          obtain ⟨rv, Ev, hIH1⟩ := IH _ hszlt _ rfl (WfReq.shapeIter self fields fs hwfs)
          refine ⟨rv, Ev, fun n hn hd tl => ?_⟩
          obtain ⟨m, rfl⟩ : ∃ m, n = m + 1 := ⟨n - 1, by omega⟩
          have hin := hIH1 m (by omega) hd tl
          simp only [step, hpo, objFieldsOf]
          rw [if_neg hmc]
          exact hin
    | oneOfTypeV G cands hwfc =>
      have hszlt : reqSize (.someCand cands value)
          < reqSize (.rv self (.oneOfTypeV cands) value) := by
        show targsSize cands + jsSize value < valSize (.oneOfTypeV cands) + jsSize value
        show targsSize cands + jsSize value < (1 + targsSize cands) + jsSize value
        omega
      obtain ⟨rv, Ev, hIH1⟩ := IH _ hszlt _ rfl (WfReq.someCand cands value hwfc)
      cases htr : jsTruthy rv with
      | true =>
        refine ⟨.boolV true, Ev, fun n hn hd tl => ?_⟩
        obtain ⟨m, rfl⟩ : ∃ m, n = m + 1 := ⟨n - 1, by omega⟩
        have hin := hIH1 m (by omega) hd tl
        simp [step, hin, htr]
      | false =>
        refine ⟨.boolV false,
          Ev ++ ["oneOfType - value \"" ++ disp value
            ++ "\" does not match any of the passed-in validators."],
          fun n hn hd tl => ?_⟩
        obtain ⟨m, rfl⟩ : ∃ m, n = m + 1 := ⟨n - 1, by omega⟩
        have hin := hIH1 m (by omega) hd tl
        simp [step, hin, htr, warnEmit, List.append_assoc]
    | andThen G parent child pv hpv hwp hwc =>
      have hszlt1 : reqSize (.rv parent pv value)
          < reqSize (.rv self (.andThen parent child) value) := by
        show valSize pv + jsSize value < valSize (.andThen parent child) + jsSize value
        have h2 := descSize_validator hpv
        show valSize pv + jsSize value < (1 + descSize parent + valSize child) + jsSize value
        omega
      obtain ⟨r1, E1, hIH1⟩ := IH _ hszlt1 _ rfl (WfReq.rv parent pv value G hwp hgs)
      cases htr : jsTruthy r1 with
      | false =>
        refine ⟨r1, E1, fun n hn hd tl => ?_⟩
        obtain ⟨m, rfl⟩ : ∃ m, n = m + 1 := ⟨n - 1, by omega⟩
        have hin1 := hIH1 m (by omega) hd tl
        simp [step, hpv, hin1, htr]
      | true =>
        have hszlt2 : reqSize (.rv self child value)
            < reqSize (.rv self (.andThen parent child) value) := by
          show valSize child + jsSize value
            < valSize (.andThen parent child) + jsSize value
          show valSize child + jsSize value
            < (1 + descSize parent + valSize child) + jsSize value
          omega
        obtain ⟨r2, E2, hIH2⟩ := IH _ hszlt2 _ rfl (WfReq.rv self child value G hwc hgs)
        refine ⟨r2, E1 ++ E2, fun n hn hd tl => ?_⟩
        obtain ⟨m, rfl⟩ : ∃ m, n = m + 1 := ⟨n - 1, by omega⟩
        have hin1 := hIH1 m (by omega) hd tl
        have hin2 := hIH2 m (by omega) (hd ++ E1) tl
        simp [step, hpv, hin1, hin2, htr, List.append_assoc]
  | everyLoud t vals hwt =>
    cases vals with
    | nil =>
      refine ⟨.boolV true, [], fun n hn hd tl => ?_⟩
      obtain ⟨m, rfl⟩ : ∃ m, n = m + 1 := ⟨n - 1, by omega⟩
      simp [step]
    | cons x rest =>
      have hszlt1 : reqSize (.vt t x false) < reqSize (.everyLoud t (x :: rest)) := by
        show targSize t + jsSize x < targSize t + jsSizeList (x :: rest)
        show targSize t + jsSize x < targSize t + (1 + jsSize x + jsSizeList rest)
        omega
      obtain ⟨r1, E1, hIH1⟩ := IH _ hszlt1 _ rfl (WfReq.vt t x false hwt)
      cases htr : jsTruthy r1 with
      | false =>
        refine ⟨.boolV false, E1, fun n hn hd tl => ?_⟩
        obtain ⟨m, rfl⟩ : ∃ m, n = m + 1 := ⟨n - 1, by omega⟩
        have hin1 := hIH1 m (by omega) hd tl
        simp [step, hin1, htr]
      | true =>
        have hszlt2 : reqSize (.everyLoud t rest) < reqSize (.everyLoud t (x :: rest)) := by
          show targSize t + jsSizeList rest < targSize t + jsSizeList (x :: rest)
          show targSize t + jsSizeList rest < targSize t + (1 + jsSize x + jsSizeList rest)
          omega
        obtain ⟨r2, E2, hIH2⟩ := IH _ hszlt2 _ rfl (WfReq.everyLoud t rest hwt)
        refine ⟨r2, E1 ++ E2, fun n hn hd tl => ?_⟩
        obtain ⟨m, rfl⟩ : ∃ m, n = m + 1 := ⟨n - 1, by omega⟩
        have hin1 := hIH1 m (by omega) hd tl
        have hin2 := hIH2 m (by omega) (hd ++ E1) tl
        simp [step, hin1, hin2, htr, List.append_assoc]
  | shapeIter self fields rem hwfs =>
    cases rem with
    | nil =>
      refine ⟨.boolV true, [], fun n hn hd tl => ?_⟩
      obtain ⟨m, rfl⟩ : ∃ m, n = m + 1 := ⟨n - 1, by omega⟩
      simp [step]
    | cons p rest =>
      obtain ⟨key, v⟩ := p
      cases hct : (fields.map Prod.fst).contains key with
      | false =>
        have hcond : ¬ ((fields.map Prod.fst).contains key = true) := by
          rw [hct]; decide
        cases hl : self.isLoose with
        | true =>
          have hszlt2 : reqSize (.shapeIter self fields rest)
              < reqSize (.shapeIter self fields ((key, v) :: rest)) := by
            show fieldsSize fields + jsSizeFields rest
              < fieldsSize fields + jsSizeFields ((key, v) :: rest)
            show fieldsSize fields + jsSizeFields rest
              < fieldsSize fields + (1 + jsSize v + jsSizeFields rest)
            omega
          obtain ⟨r2, E2, hIH2⟩ := IH _ hszlt2 _ rfl (WfReq.shapeIter self fields rest hwfs)
          refine ⟨r2, E2, fun n hn hd tl => ?_⟩
          obtain ⟨m, rfl⟩ : ∃ m, n = m + 1 := ⟨n - 1, by omega⟩
          have hin2 := hIH2 m (by omega) hd tl
          simp only [step]
          rw [if_pos hcond, if_pos hl]
          exact hin2
        | false =>
          refine ⟨.boolV false,
            ["shape - shape definition does not include a \"" ++ key
              ++ "\" property. Allowed keys: \""
              ++ String.intercalate "\", \"" (fields.map Prod.fst) ++ "\"."],
            fun n hn hd tl => ?_⟩
          obtain ⟨m, rfl⟩ : ∃ m, n = m + 1 := ⟨n - 1, by omega⟩
          simp only [step]
          rw [if_pos hcond, if_neg (by rw [hl]; decide)]
          simp [warnEmit]
      | true =>
        obtain ⟨ta, hta⟩ := contains_lookup_isSome hct
        have hwta : WfArg env ta := hwfs _ (lookup_mem hta)
        have hszlt1 : reqSize (.vt ta v true)
            < reqSize (.shapeIter self fields ((key, v) :: rest)) := by
          show targSize ta + jsSize v
            < fieldsSize fields + jsSizeFields ((key, v) :: rest)
          have h2 := lookup_targSize hta
          show targSize ta + jsSize v
            < fieldsSize fields + (1 + jsSize v + jsSizeFields rest)
          omega
        obtain ⟨r1, E1, hIH1⟩ := IH _ hszlt1 _ rfl (WfReq.vt ta v true hwta)
        have hszlt2 : reqSize (.shapeIter self fields rest)
            < reqSize (.shapeIter self fields ((key, v) :: rest)) := by
          show fieldsSize fields + jsSizeFields rest
            < fieldsSize fields + jsSizeFields ((key, v) :: rest)
          show fieldsSize fields + jsSizeFields rest
            < fieldsSize fields + (1 + jsSize v + jsSizeFields rest)
          omega
        obtain ⟨r2, E2, hIH2⟩ := IH _ hszlt2 _ rfl (WfReq.shapeIter self fields rest hwfs)
        cases r1 with
        | strV msg1 =>
          refine ⟨.boolV false,
            E1 ++ ["shape - \"" ++ key ++ "\" property validation error:\n * " ++ msg1],
            fun n hn hd tl => ?_⟩
          obtain ⟨m, rfl⟩ : ∃ m, n = m + 1 := ⟨n - 1, by omega⟩
          have hin1 := hIH1 m (by omega) hd tl
          simp only [step]
          rw [if_neg (by rw [hct]; decide), hta]
          simp only [Option.getD, hin1]
          simp [isTrueV, warnEmit, List.append_assoc]
        | boolV b =>
          cases b with
          | true =>
            refine ⟨r2, E1 ++ E2, fun n hn hd tl => ?_⟩
            obtain ⟨m, rfl⟩ : ∃ m, n = m + 1 := ⟨n - 1, by omega⟩
            have hin1 := hIH1 m (by omega) hd tl
            have hin2 := hIH2 m (by omega) (hd ++ E1) tl
            simp only [step]
            rw [if_neg (by rw [hct]; decide), hta]
            simp only [Option.getD, hin1]
            simp [isTrueV, hin2, List.append_assoc]
          | false =>
            refine ⟨.boolV false, E1, fun n hn hd tl => ?_⟩
            obtain ⟨m, rfl⟩ : ∃ m, n = m + 1 := ⟨n - 1, by omega⟩
            have hin1 := hIH1 m (by omega) hd tl
            simp only [step]
            rw [if_neg (by rw [hct]; decide), hta]
            simp only [Option.getD, hin1]
            simp [isTrueV]
        | undef =>
          refine ⟨.boolV false, E1, fun n hn hd tl => ?_⟩
          obtain ⟨m, rfl⟩ : ∃ m, n = m + 1 := ⟨n - 1, by omega⟩
          have hin1 := hIH1 m (by omega) hd tl
          simp only [step]
          rw [if_neg (by rw [hct]; decide), hta]
          simp only [Option.getD, hin1]
          simp [isTrueV]
        | null =>
          refine ⟨.boolV false, E1, fun n hn hd tl => ?_⟩
          obtain ⟨m, rfl⟩ : ∃ m, n = m + 1 := ⟨n - 1, by omega⟩
          have hin1 := hIH1 m (by omega) hd tl
          simp only [step]
          rw [if_neg (by rw [hct]; decide), hta]
          simp only [Option.getD, hin1]
          simp [isTrueV]
        | numV x1 =>
          refine ⟨.boolV false, E1, fun n hn hd tl => ?_⟩
          obtain ⟨m, rfl⟩ : ∃ m, n = m + 1 := ⟨n - 1, by omega⟩
          have hin1 := hIH1 m (by omega) hd tl
          simp only [step]
          rw [if_neg (by rw [hct]; decide), hta]
          simp only [Option.getD, hin1]
          simp [isTrueV]
        | symV x1 =>
          refine ⟨.boolV false, E1, fun n hn hd tl => ?_⟩
          obtain ⟨m, rfl⟩ : ∃ m, n = m + 1 := ⟨n - 1, by omega⟩
          have hin1 := hIH1 m (by omega) hd tl
          simp only [step]
          rw [if_neg (by rw [hct]; decide), hta]
          simp only [Option.getD, hin1]
          simp [isTrueV]
        | funcV x1 =>
          refine ⟨.boolV false, E1, fun n hn hd tl => ?_⟩
          obtain ⟨m, rfl⟩ : ∃ m, n = m + 1 := ⟨n - 1, by omega⟩
          have hin1 := hIH1 m (by omega) hd tl
          simp only [step]
          rw [if_neg (by rw [hct]; decide), hta]
          simp only [Option.getD, hin1]
          simp [isTrueV]
        | arrV x1 =>
          refine ⟨.boolV false, E1, fun n hn hd tl => ?_⟩
          obtain ⟨m, rfl⟩ : ∃ m, n = m + 1 := ⟨n - 1, by omega⟩
          have hin1 := hIH1 m (by omega) hd tl
          simp only [step]
          rw [if_neg (by rw [hct]; decide), hta]
          simp only [Option.getD, hin1]
          simp [isTrueV]
        | objV x1 =>
          refine ⟨.boolV false, E1, fun n hn hd tl => ?_⟩
          obtain ⟨m, rfl⟩ : ∃ m, n = m + 1 := ⟨n - 1, by omega⟩
          have hin1 := hIH1 m (by omega) hd tl
          simp only [step]
          rw [if_neg (by rw [hct]; decide), hta]
          simp only [Option.getD, hin1]
          simp [isTrueV]
        | instV x1 x2 =>
          refine ⟨.boolV false, E1, fun n hn hd tl => ?_⟩
          obtain ⟨m, rfl⟩ : ∃ m, n = m + 1 := ⟨n - 1, by omega⟩
          have hin1 := hIH1 m (by omega) hd tl
          simp only [step]
          rw [if_neg (by rw [hct]; decide), hta]
          simp only [Option.getD, hin1]
          simp [isTrueV]
  | someCand cands value hwfc =>
    cases cands with
    | nil =>
      refine ⟨.boolV false, [], fun n hn hd tl => ?_⟩
      obtain ⟨m, rfl⟩ : ∃ m, n = m + 1 := ⟨n - 1, by omega⟩
      simp [step]
    | cons cand rest =>
      have hwcand : WfArg env cand := hwfc cand (List.mem_cons_self _ _)
      have hwrest : ∀ c ∈ rest, WfArg env c :=
        fun c hc => hwfc c (List.mem_cons_of_mem _ hc)
      have hszlt2 : reqSize (.someCand rest value)
          < reqSize (.someCand (cand :: rest) value) := by
        show targsSize rest + jsSize value < targsSize (cand :: rest) + jsSize value
        show targsSize rest + jsSize value
          < (1 + targSize cand + targsSize rest) + jsSize value
        omega
      obtain ⟨r2, E2, hIH2⟩ := IH _ hszlt2 _ rfl (WfReq.someCand rest value hwrest)
      cases cand with
      | bare tv =>
        have hszlt1 : reqSize (.vt (.bare tv) value true)
            < reqSize (.someCand (TypeArg.bare tv :: rest) value) := by
          show targSize (.bare tv) + jsSize value
            < targsSize (TypeArg.bare tv :: rest) + jsSize value
          show targSize (.bare tv) + jsSize value
            < (1 + targSize (.bare tv) + targsSize rest) + jsSize value
          omega
        obtain ⟨r1, E1, hIH1⟩ := IH _ hszlt1 _ rfl (WfReq.vt (.bare tv) value true hwcand)
        cases hr1 : isTrueV r1 with
        | true =>
          refine ⟨.boolV true, E1, fun n hn hd tl => ?_⟩
          obtain ⟨m, rfl⟩ : ∃ m, n = m + 1 := ⟨n - 1, by omega⟩
          have hin1 := hIH1 m (by omega) hd tl
          simp [step, hin1, hr1]
        | false =>
          refine ⟨r2, E1 ++ E2, fun n hn hd tl => ?_⟩
          obtain ⟨m, rfl⟩ : ∃ m, n = m + 1 := ⟨n - 1, by omega⟩
          have hin1 := hIH1 m (by omega) hd tl
          have hin2 := hIH2 m (by omega) (hd ++ E1) tl
          simp [step, hin1, hin2, hr1, List.append_assoc]
      | desc d =>
        by_cases hname : d.name = some "oneOf"
        · have hwb : WfArg env (.bare (typeFallback d.typeF)) := by
            cases hwcand with
            | desc d htf hv => exact WfArg.bare _ (typeFallback_wf htf)
          have hszlt1 : reqSize (.vt (.bare (typeFallback d.typeF)) value true)
              < reqSize (.someCand (TypeArg.desc d :: rest) value) := by
            show targSize (.bare (typeFallback d.typeF)) + jsSize value
              < targsSize (TypeArg.desc d :: rest) + jsSize value
            have h1 := targSize_pos (.desc d)
            show targSize (.bare (typeFallback d.typeF)) + jsSize value
              < (1 + targSize (.desc d) + targsSize rest) + jsSize value
            show 1 + jsSize value < (1 + targSize (.desc d) + targsSize rest) + jsSize value
            omega
          obtain ⟨r1, E1, hIH1⟩ :=
            IH _ hszlt1 _ rfl (WfReq.vt (.bare (typeFallback d.typeF)) value true hwb)
          cases hr1 : isTrueV r1 with
          | true =>
            refine ⟨.boolV true, E1, fun n hn hd tl => ?_⟩
            obtain ⟨m, rfl⟩ : ∃ m, n = m + 1 := ⟨n - 1, by omega⟩
            have hin1 := hIH1 m (by omega) hd tl
            simp [step, hname, hin1, hr1]
          | false =>
            refine ⟨r2, E1 ++ E2, fun n hn hd tl => ?_⟩
            obtain ⟨m, rfl⟩ : ∃ m, n = m + 1 := ⟨n - 1, by omega⟩
            have hin1 := hIH1 m (by omega) hd tl
            have hin2 := hIH2 m (by omega) (hd ++ E1) tl
            simp [step, hname, hin1, hin2, hr1, List.append_assoc]
        · have hszlt1 : reqSize (.vt (.desc d) value true)
              < reqSize (.someCand (TypeArg.desc d :: rest) value) := by
            show targSize (.desc d) + jsSize value
              < targsSize (TypeArg.desc d :: rest) + jsSize value
            show targSize (.desc d) + jsSize value
              < (1 + targSize (.desc d) + targsSize rest) + jsSize value
            omega
          obtain ⟨r1, E1, hIH1⟩ := IH _ hszlt1 _ rfl (WfReq.vt (.desc d) value true hwcand)
          cases hr1 : isTrueV r1 with
          | true =>
            refine ⟨.boolV true, E1, fun n hn hd tl => ?_⟩
            obtain ⟨m, rfl⟩ : ∃ m, n = m + 1 := ⟨n - 1, by omega⟩
            have hin1 := hIH1 m (by omega) hd tl
            simp [step, hname, hin1, hr1]
          | false =>
            refine ⟨r2, E1 ++ E2, fun n hn hd tl => ?_⟩
            obtain ⟨m, rfl⟩ : ∃ m, n = m + 1 := ⟨n - 1, by omega⟩
            have hin1 := hIH1 m (by omega) hd tl
            have hin2 := hIH2 m (by omega) (hd ++ E1) tl
            simp [step, hname, hin1, hin2, hr1, List.append_assoc]

end VT

namespace VT

/-- Canonical form of a well-formed run: a returned value and a batch
of appended diagnostics, identical at every sufficient fuel. -/
theorem runReq_spec (env : UserEnv) (req : Req) (h : WfReq env req) :
    ∃ (r : JSVal) (E : List String), runReq env req = .ok r [E] ∧
      ∀ (n : Nat), reqSize req < n → ∀ (hd : List String) (tl : WState),
        step env n req (hd :: tl) = .ok r ((hd ++ E) :: tl) := by
  obtain ⟨r, E, hs⟩ := step_sound env _ req rfl h
  refine ⟨r, E, ?_, hs⟩
  have h2 := hs (reqSize req + 1) (by omega) [] []
  simpa [runReq] using h2

/-! ### The library's builders produce well-formed descriptors -/

theorem wf_bare_single (env : UserEnv) (c : Ctor) : WfArg env (.bare (.single c)) :=
  WfArg.bare _ trivial

theorem wf_bare_tnull (env : UserEnv) : WfArg env (.bare .tnull) :=
  WfArg.bare _ trivial

theorem wf_noValidator (env : UserEnv) (nm : String) (tv : TypeVal) (hwtv : WfTV tv)
    (r : Option Bool) (df : Option DefaultVal) (vf : Bool) :
    WfArg env (.desc (toType nm (some tv) r df none vf)) := by
  refine WfArg.desc _ ?_ ?_
  · intro tv' htv'
    rw [toType_typeF] at htv'
    obtain rfl := Option.some.inj htv'
    exact hwtv
  · intro w hw
    rw [toType_validator] at hw
    cases hw

theorem wf_stringD (env : UserEnv) : WfArg env (.desc stringD) :=
  wf_noValidator env "string" (.single .str) trivial none none true

theorem wf_numberD (env : UserEnv) : WfArg env (.desc numberD) :=
  wf_noValidator env "number" (.single .number) trivial none none true

theorem wf_anyD (env : UserEnv) : WfArg env (.desc anyD) :=
  wf_noValidator env "any" .tnull trivial none none true

theorem wf_isRequired (env : UserEnv) (d : Descriptor)
    (h : WfArg env (.desc d)) : WfArg env (.desc d.isRequired) := by
  cases h with
  | desc d htf hv =>
    cases d with
    | mk n t r df vo vf l =>
      exact WfArg.desc _ (fun tv htv => htf tv htv) (fun w hw => hv w hw)

theorem wf_integerD (env : UserEnv) : WfArg env (.desc integerD) := by
  refine WfArg.desc _ ?_ ?_
  · intro tv htv
    rw [show integerD.typeF = some (.single .number) from rfl] at htv
    obtain rfl := Option.some.inj htv
    trivial
  · intro w hw
    rw [show integerD.validator = some .integerV from rfl] at hw
    obtain rfl := Option.some.inj hw
    exact WfV.integerV _

theorem wf_symbolD (env : UserEnv) : WfArg env (.desc symbolD) := by
  refine WfArg.desc _ ?_ ?_
  · intro tv htv
    rw [show symbolD.typeF = some .tnull from rfl] at htv
    obtain rfl := Option.some.inj htv
    trivial
  · intro w hw
    rw [show symbolD.validator = some .symbolV from rfl] at hw
    obtain rfl := Option.some.inj hw
    exact WfV.symbolV _

theorem wf_oneOf (env : UserEnv) (arr : List JSVal) : WfArg env (.desc (oneOf arr)) := by
  refine WfArg.desc _ ?_ ?_
  · intro tv htv
    rw [oneOf_typeF] at htv
    obtain rfl := Option.some.inj htv
    by_cases hA : (oneOfAllowed arr).isEmpty
    · simp [hA, WfTV]
    · simp only [hA, if_false, Bool.false_eq_true]
      show TypeMember.mundef ∉ (oneOfAllowed arr).map .mctor
      intro hmem
      obtain ⟨c, _, hc⟩ := List.mem_map.mp hmem
      cases hc
  · intro w hw
    rw [oneOf_validator] at hw
    obtain rfl := Option.some.inj hw
    exact WfV.oneOfV _ _

theorem wf_custom (env : UserEnv) (f : Nat) (nm msg : String)
    (hnt : ∀ args, (env f args).2 ≠ none) :
    WfArg env (.desc (custom f nm msg)) := by
  refine WfArg.desc _ ?_ ?_
  · intro tv htv
    rw [show (custom f nm msg).typeF = none from rfl] at htv
    cases htv
  · intro w hw
    rw [show (custom f nm msg).validator = some (.customV f msg) from rfl] at hw
    obtain rfl := Option.some.inj hw
    exact WfV.customV _ f msg hnt

theorem wf_shape (env : UserEnv) (fields : List (String × TypeArg))
    (h : ∀ p ∈ fields, WfArg env p.2) : WfArg env (.desc (shape fields)) := by
  refine WfArg.desc _ ?_ ?_
  · intro tv htv
    rw [show (shape fields).typeF = some (.single .object) from rfl] at htv
    obtain rfl := Option.some.inj htv
    trivial
  · intro w hw
    rw [show (shape fields).validator = some (.shapeV fields) from rfl] at hw
    obtain rfl := Option.some.inj hw
    exact WfV.shapeV _ _ h

theorem wf_shape_loose (env : UserEnv) (fields : List (String × TypeArg))
    (h : ∀ p ∈ fields, WfArg env p.2) : WfArg env (.desc (shape fields).loose) := by
  refine WfArg.desc _ ?_ ?_
  · intro tv htv
    rw [show (shape fields).loose.typeF = some (.single .object) from rfl] at htv
    obtain rfl := Option.some.inj htv
    trivial
  · intro w hw
    rw [show (shape fields).loose.validator = some (.shapeV fields) from rfl] at hw
    obtain rfl := Option.some.inj hw
    exact WfV.shapeV _ _ h

theorem wf_arrayOf (env : UserEnv) (t : TypeArg) (h : WfArg env t) :
    WfArg env (.desc (arrayOf t)) := by
  refine WfArg.desc _ ?_ ?_
  · intro tv htv
    rw [show (arrayOf t).typeF = some (.single .array) from rfl] at htv
    obtain rfl := Option.some.inj htv
    trivial
  · intro w hw
    rw [show (arrayOf t).validator = some (.arrayOfV t) from rfl] at hw
    obtain rfl := Option.some.inj hw
    exact WfV.arrayOfV _ h

theorem wf_objectOf (env : UserEnv) (t : TypeArg) (h : WfArg env t) :
    WfArg env (.desc (objectOf t)) := by
  refine WfArg.desc _ ?_ ?_
  · intro tv htv
    rw [show (objectOf t).typeF = some (.single .object) from rfl] at htv
    obtain rfl := Option.some.inj htv
    trivial
  · intro w hw
    rw [show (objectOf t).validator = some (.objectOfV t) from rfl] at hw
    obtain rfl := Option.some.inj hw
    exact WfV.objectOfVo _ h

/-! ## Claim C2 (amended theorem) -/

/-- C2 (amended): on well-formed arguments — no `undefined` stored in
a `type` position and no throwing user validator — `validateType`
always returns a result: a JS value (`true`, `false`, or a diagnostic
string, per the engine's contract), with the sink receiving a batch of
messages and the sink reference restored.  (The counterexample shows
the two excluded throw sources are real: a type of `undefined` throws
a `TypeError` at validation time.) -/
theorem claim_C2_amended (env : UserEnv) (t : TypeArg) (value : JSVal)
    (silent : Bool) (hwf : WfArg env t) :
    ∃ (r : JSVal) (E : List String),
      validateType env t value silent = .ok r [E] := by
  obtain ⟨r, E, h1, _⟩ := runReq_spec env (.vt t value silent) (WfReq.vt t value silent hwf)
  exact ⟨r, E, h1⟩

/-- Witness for C2 (amended): a concrete well-formed run through a
nested composite descriptor returns a value. -/
theorem claim_C2_witness :
    validateType env0 (.desc (shape [("id", .desc integerD.isRequired), ("tags", .desc (arrayOf (.bare (.single .str))))]))
      (.objV [("id", .numV 3), ("tags", .arrV [.strV "a"])]) true = .ok (.boolV true) [[]] := by
  have h := claim_C2_amended env0
    (.desc (shape [("id", .desc integerD.isRequired), ("tags", .desc (arrayOf (.bare (.single .str))))]))
    (.objV [("id", .numV 3), ("tags", .arrV [.strV "a"])]) true
    (wf_shape env0 _ (by
      intro p hp
      rcases List.mem_cons.mp hp with rfl | hp2
      · exact wf_isRequired env0 integerD (wf_integerD env0)
      · rcases List.mem_cons.mp hp2 with rfl | hp3
        · exact wf_arrayOf env0 _ (wf_bare_single env0 .str)
        · cases hp3))
  obtain ⟨r, E, hr⟩ := h
  exact rfl

end VT

namespace VT

/-! ## Claim C3 — `oneOfType`'s candidate semantics

`oneOfType`'s stored validator (index.js lines 258-267) tries
`arr.some((type) => validateType(t, value, true) === true)` where
`t = type._vueTypes_name === 'oneOf' ? type.type || null : type`
(line 260): a candidate named `oneOf` is replaced by its bare `type` —
its literal-membership validator is dropped (the test suite pins this
at line 677: "validates types not values!").  `candCheck` is that
per-candidate replacement. -/

/-- The per-candidate target of `oneOfType`'s validator
(index.js line 260). -/
def candCheck : TypeArg → TypeArg
  | .desc d => if d.name = some "oneOf" then .bare (typeFallback d.typeF) else .desc d
  | .bare tv => .bare tv

/-- The deduplicated flattened union `oneOfType` stores as its `type`
(index.js lines 227-246). -/
def oneOfTypeNative (cands : List TypeArg) : List TypeMember :=
  dedupMembers (cands.foldl (fun ret c => ret ++ candMembers c) [])

theorem candCheck_oneOf {d : Descriptor} (h : d.name = some "oneOf") :
    candCheck (.desc d) = .bare (typeFallback d.typeF) := by
  show (if d.name = some "oneOf" then TypeArg.bare (typeFallback d.typeF) else .desc d) = _
  rw [if_pos h]

theorem candCheck_other {d : Descriptor} (h : ¬ d.name = some "oneOf") :
    candCheck (.desc d) = .desc d := by
  show (if d.name = some "oneOf" then TypeArg.bare (typeFallback d.typeF) else .desc d) = _
  rw [if_neg h]

theorem candCheck_bare (tv : TypeVal) : candCheck (.bare tv) = .bare tv := rfl

theorem targSize_candCheck_le (c : TypeArg) : targSize (candCheck c) ≤ targSize c := by
  cases c with
  | desc d =>
    by_cases h : d.name = some "oneOf"
    · rw [candCheck_oneOf h]
      show 1 ≤ 1 + descSize d
      omega
    · rw [candCheck_other h]
  | bare tv => exact le_refl _

theorem wfArg_candCheck {env : UserEnv} {c : TypeArg} (h : WfArg env c) :
    WfArg env (candCheck c) := by
  cases h with
  | bare tv htv => exact WfArg.bare tv htv
  | desc d htf hv =>
    by_cases hnm : d.name = some "oneOf"
    · rw [candCheck_oneOf hnm]
      exact WfArg.bare _ (typeFallback_wf htf)
    · rw [candCheck_other hnm]
      exact WfArg.desc d htf hv

theorem candMembers_no_mundef {env : UserEnv} {c : TypeArg} (h : WfArg env c) :
    TypeMember.mundef ∉ candMembers c := by
  cases h with
  | bare tv htv =>
    cases tv with
    | tnull => simp [candMembers]
    | tundef => exact absurd htv (by simp [WfTV])
    | single c => simp [candMembers]
    | tlist ms => simpa [candMembers, WfTV] using htv
  | desc d htf hv =>
    cases htF : d.typeF with
    | none => by_cases hname : d.name = some "oneOf" <;> simp [candMembers, htF, hname]
    | some tv =>
      cases tv with
      | tundef => exact absurd (htf _ htF) (by simp [WfTV])
      | tnull => by_cases hname : d.name = some "oneOf" <;> simp [candMembers, htF, hname]
      | single c => by_cases hname : d.name = some "oneOf" <;> simp [candMembers, htF, hname]
      | tlist ms =>
        have hms := htf _ htF
        by_cases hname : d.name = some "oneOf" <;>
          simpa [candMembers, htF, hname, WfTV] using hms

theorem foldl_members_mem {x : TypeMember} :
    ∀ (cands : List TypeArg) (acc : List TypeMember),
      x ∈ cands.foldl (fun ret c => ret ++ candMembers c) acc →
      x ∈ acc ∨ ∃ c ∈ cands, x ∈ candMembers c := by
  intro cands
  induction cands with
  | nil => intro acc h; exact Or.inl h
  | cons cand rest ih =>
    intro acc h
    rw [List.foldl_cons] at h
    rcases ih _ h with h2 | ⟨c, hc, hx⟩
    · rcases List.mem_append.mp h2 with ha | hb
      · exact Or.inl ha
      · exact Or.inr ⟨cand, List.mem_cons_self _ _, hb⟩
    · exact Or.inr ⟨c, List.mem_cons_of_mem _ hc, hx⟩

theorem dedupMembers_subset {x : TypeMember} {ms : List TypeMember}
    (h : x ∈ dedupMembers ms) : x ∈ ms := by
  suffices H : ∀ (l acc : List TypeMember),
      x ∈ l.foldl (fun ret m => if ret.contains m then ret else ret ++ [m]) acc →
      x ∈ acc ∨ x ∈ l by
    rcases H ms [] h with h1 | h1
    · cases h1
    · exact h1
  intro l
  induction l with
  | nil => intro acc h; exact Or.inl h
  | cons m rest ih =>
    intro acc h
    rw [List.foldl_cons] at h
    rcases ih _ h with h2 | h2
    · by_cases hc : acc.contains m
      · rw [if_pos hc] at h2
        exact Or.inl h2
      · rw [if_neg hc] at h2
        rcases List.mem_append.mp h2 with ha | hb
        · exact Or.inl ha
        · refine Or.inr ?_
          rw [List.mem_singleton.mp hb]
          exact List.mem_cons_self m rest
    · exact Or.inr (List.mem_cons_of_mem _ h2)

theorem oneOfTypeNative_no_mundef {env : UserEnv} {cands : List TypeArg}
    (h : ∀ c ∈ cands, WfArg env c) :
    TypeMember.mundef ∉ oneOfTypeNative cands := by
  intro hmem
  have h1 := dedupMembers_subset hmem
  rcases foldl_members_mem cands [] h1 with h2 | ⟨c, hc, hx⟩
  · cases h2
  · exact candMembers_no_mundef (h c hc) hx

theorem oneOfType_pos (cands : List TypeArg) (h : cands.any candHasValidator = true) :
    oneOfType cands = toType "oneOfType" (some (.tlist (oneOfTypeNative cands)))
      none none (some (.oneOfTypeV cands)) := by
  unfold oneOfType
  rw [h]
  rfl

theorem oneOfType_neg (cands : List TypeArg) (h : cands.any candHasValidator = false) :
    oneOfType cands = toType "oneOfType" (some (.tlist (oneOfTypeNative cands)))
      none none none := by
  unfold oneOfType
  rw [h]
  rfl

/-- The candidate loop `arr.some((type) => validateType(t, value, true)
=== true)` of `oneOfType`'s validator succeeds exactly when some
candidate's *check target* (`candCheck`) silently validates the
value. -/
theorem someCand_sound (env : UserEnv) (value : JSVal) :
    ∀ (cands : List TypeArg), (∀ c ∈ cands, WfArg env c) →
    ∃ E : List String, ∀ (n : Nat), targsSize cands + jsSize value < n →
      ∀ (hd : List String) (tl : WState),
        step env n (.someCand cands value) (hd :: tl)
          = .ok (.boolV (cands.any (fun c => utilsValidate env value (candCheck c))))
               ((hd ++ E) :: tl) := by
  intro cands
  induction cands with
  | nil =>
    intro _
    refine ⟨[], fun n hn hd tl => ?_⟩
    obtain ⟨m, rfl⟩ : ∃ m, n = m + 1 := ⟨n - 1, by omega⟩
    simp [step]
  | cons cand rest ih =>
    intro hwf
    have hwcand : WfArg env cand := hwf cand (List.mem_cons_self _ _)
    obtain ⟨E2, hstep2⟩ := ih (fun c hc => hwf c (List.mem_cons_of_mem _ hc))
    obtain ⟨r1, E1, hrun1, hstep1⟩ := runReq_spec env (.vt (candCheck cand) value true)
      (WfReq.vt _ _ _ (wfArg_candCheck hwcand))
    have hu : utilsValidate env value (candCheck cand) = isTrueV r1 := by
      simp [utilsValidate, validateType, hrun1]
    have hsz : targSize (candCheck cand) ≤ targSize cand := targSize_candCheck_le cand
    have hanyc : (cand :: rest).any (fun c => utilsValidate env value (candCheck c))
        = (isTrueV r1 || rest.any (fun c => utilsValidate env value (candCheck c))) := by
      rw [List.any_cons, hu]
    cases hr1 : isTrueV r1 with
    | true =>
      refine ⟨E1, fun n hn hd tl => ?_⟩
      obtain ⟨m, rfl⟩ : ∃ m, n = m + 1 := ⟨n - 1, by omega⟩
      have hm : reqSize (.vt (candCheck cand) value true) < m := by
        show targSize (candCheck cand) + jsSize value < m
        have hcs : targsSize (cand :: rest) + jsSize value < m + 1 := hn
        have hc2 : targsSize (cand :: rest) = 1 + targSize cand + targsSize rest := rfl
        omega
      have hin1 := hstep1 m hm hd tl
      rw [hanyc, hr1, Bool.true_or]
      cases cand with
      | bare tv =>
        rw [candCheck_bare] at hin1
        simp [step, hin1, hr1]
      | desc d =>
        by_cases hname : d.name = some "oneOf"
        · rw [candCheck_oneOf hname] at hin1
          simp [step, hname, hin1, hr1]
        · rw [candCheck_other hname] at hin1
          simp [step, hname, hin1, hr1]
    | false =>
      refine ⟨E1 ++ E2, fun n hn hd tl => ?_⟩
      obtain ⟨m, rfl⟩ : ∃ m, n = m + 1 := ⟨n - 1, by omega⟩
      have hm : reqSize (.vt (candCheck cand) value true) < m := by
        show targSize (candCheck cand) + jsSize value < m
        have hcs : targsSize (cand :: rest) + jsSize value < m + 1 := hn
        have hc2 : targsSize (cand :: rest) = 1 + targSize cand + targsSize rest := rfl
        omega
      have hm2 : targsSize rest + jsSize value < m := by
        have hcs : targsSize (cand :: rest) + jsSize value < m + 1 := hn
        have hc2 : targsSize (cand :: rest) = 1 + targSize cand + targsSize rest := rfl
        omega
      have hin1 := hstep1 m hm hd tl
      have hin2 := hstep2 m hm2 (hd ++ E1) tl
      rw [hanyc, hr1, Bool.false_or]
      cases cand with
      | bare tv =>
        rw [candCheck_bare] at hin1
        simp [step, hin1, hin2, hr1, List.append_assoc]
      | desc d =>
        by_cases hname : d.name = some "oneOf"
        · rw [candCheck_oneOf hname] at hin1
          simp [step, hname, hin1, hin2, hr1, List.append_assoc]
        · rw [candCheck_other hname] at hin1
          simp [step, hname, hin1, hin2, hr1, List.append_assoc]

end VT

namespace VT

/-- C3 (counterexample): in
`oneOfType([oneOf([0, 1, 'string']), shape({id: Number})])` the value
`5` is accepted by the composite descriptor although neither
candidate's full validation semantics accepts it — the nested
`oneOf`'s literal-membership validator is dropped and only its `type`
union (`[Number, String]`) is kept (the test suite pins this:
"validates types not values!", test/index.test.js line 677). -/
theorem claim_C3_counterexample :
    utilsValidate env0 (.numV 5) (.desc (oneOf [.numV 0, .numV 1, .strV "string"])) = false ∧
    utilsValidate env0 (.numV 5) (.desc (shape [("id", .bare (.single .number))])) = false ∧
    utilsValidate env0 (.numV 5)
      (.desc (oneOfType [.desc (oneOf [.numV 0, .numV 1, .strV "string"]),
                         .desc (shape [("id", .bare (.single .number))])])) = true :=
  ⟨rfl, rfl, rfl⟩

/-- C3 (amended): with at least one validator-carrying candidate,
silent validation against `oneOfType(cands)` passes iff the value is
`undefined` (short-circuit), or it passes the flattened deduplicated
native union AND some candidate's *check target* accepts it silently
— where a candidate named `oneOf` is replaced by its bare `type`
(`candCheck`), so a nested `oneOf` contributes only its type tags and
its literal-membership validator is not preserved as an alternative. -/
theorem claim_C3_amended (env : UserEnv) (cands : List TypeArg) (value : JSVal)
    (hwf : ∀ c ∈ cands, WfArg env c) (hcv : cands.any candHasValidator = true) :
    utilsValidate env value (.desc (oneOfType cands)) =
      (isUndef value ||
        ((match unionSome (oneOfTypeNative cands) value with
          | .ok b => b
          | .error _ => false)
         && cands.any (fun c => utilsValidate env value (candCheck c)))) := by
  obtain ⟨bu, hbu⟩ := unionSome_no_mundef _ (oneOfTypeNative_no_mundef hwf) value
  obtain ⟨Es, hsome⟩ := someCand_sound env value cands hwf
  have key : validateType env (.desc (oneOfType cands)) value true
      = step env (((targsSize cands + jsSize value + 3) + 1) + 1)
          (.vt (.desc (oneOfType cands)) value true) [[]] := by
    show step env (reqSize (.vt (.desc (oneOfType cands)) value true) + 1) _ _ = _
    congr 1
    rw [oneOfType_pos cands hcv]
    show (1 + (2 + (1 + targsSize cands))) + jsSize value + 1 = _
    omega
  have hunf : utilsValidate env value (.desc (oneOfType cands))
      = (match validateType env (.desc (oneOfType cands)) value true with
         | .ok r _ => isTrueV r
         | _ => false) := rfl
  rw [hunf, key, oneOfType_pos cands hcv, hbu]
  cases hu : isUndef value with
  | true =>
    simp [step, normalizeArg, toType, Descriptor.typeF, Descriptor.required,
      truthyOptB, hu, isTrueV]
  | false =>
    rw [Bool.false_or]
    have hin := hsome (targsSize cands + jsSize value + 3) (by omega) [] [[]]
    obtain ⟨M, hM⟩ : ∃ M, targsSize cands + jsSize value + 3 = M := ⟨_, rfl⟩
    rw [hM] at hin ⊢
    cases hbv : bu with
    | false =>
      simp [step, normalizeArg, toType, Descriptor.typeF, Descriptor.required,
        truthyOptB, hu, hbu, hbv, isTrueV]
    | true =>
      cases hany : cands.any (fun c => utilsValidate env value (candCheck c)) with
      | true =>
        simp [step, normalizeArg, toType, Descriptor.typeF, Descriptor.required,
          Descriptor.validator, Descriptor.name, truthyOptB, hu, hbu, hbv, hin, hany,
          jsTruthy, isTrueV, warnEmit]
      | false =>
        simp [step, normalizeArg, toType, Descriptor.typeF, Descriptor.required,
          Descriptor.validator, Descriptor.name, truthyOptB, hu, hbu, hbv, hin, hany,
          jsTruthy, isTrueV, warnEmit]

/-- Witness for C3 (amended): the counterexample's candidate list is
well-formed and carries a validator, and the amended rule computes the
accepting verdict for the value `5`. -/
theorem claim_C3_witness :
    utilsValidate env0 (.numV 5)
      (.desc (oneOfType [.desc (oneOf [.numV 0, .numV 1, .strV "string"]),
                         .desc (shape [("id", .bare (.single .number))])])) = true := by
  have h := claim_C3_amended env0
    [.desc (oneOf [.numV 0, .numV 1, .strV "string"]),
     .desc (shape [("id", .bare (.single .number))])] (.numV 5)
    (by
      intro c hc
      rcases List.mem_cons.mp hc with rfl | hc2
      · exact wf_oneOf env0 _
      · rcases List.mem_cons.mp hc2 with rfl | hc3
        · exact wf_shape env0 _ (by
            intro p hp
            rw [List.mem_singleton.mp hp]
            exact wf_bare_single env0 .number)
        · cases hc3)
    rfl
  rw [h]
  rfl

end VT

namespace VT

/-! ## Claim C6 — `shape`'s validator (index.js lines 298-368) -/

/-- `requiredKeys` (index.js lines 299-302). -/
def shapeRequiredKeys (fields : List (String × TypeArg)) : List String :=
  (fields.filter (fun p => isRequiredField p.2)).map Prod.fst

/-- `missing` (index.js lines 315-319): the required field names
absent from the value's own keys. -/
def shapeMissing (fields : List (String × TypeArg)) (value : JSVal) : List String :=
  (shapeRequiredKeys fields).filter
    (fun k => ¬ ((objFieldsOf value).map Prod.fst).contains k)

/-- The per-key rule of lines 332-349: a declared key must validate
(silently) to exactly `true`; an undeclared key passes only under the
loose flag. -/
def shapeKeyOk (env : UserEnv) (self : Descriptor) (fields : List (String × TypeArg))
    (k : String) (v : JSVal) : Bool :=
  if (fields.map Prod.fst).contains k then
    utilsValidate env v ((List.lookup k fields).getD (.bare .tnull))
  else self.isLoose

/-- The verdict of `shape`'s validator (lines 306-350). -/
def shapeAccepts (env : UserEnv) (self : Descriptor) (fields : List (String × TypeArg))
    (value : JSVal) : Bool :=
  if ¬ isPlainObjectV value then false
  else if shapeMissing fields value ≠ [] then false
  else (objFieldsOf value).all (fun p => shapeKeyOk env self fields p.1 p.2)

/-- The per-field diagnostic of lines 344-347: a string result of the
silent recursive validation is re-emitted; other results are not. -/
def shapeFieldErr (k : String) (r : JSVal) : List String :=
  match r with
  | .strV m => ["shape - \"" ++ k ++ "\" property validation error:\n * " ++ m]
  | _ => []

theorem shapeMissing_requiredKeys_ne {fields : List (String × TypeArg)} {value : JSVal}
    (h : shapeMissing fields value ≠ []) : shapeRequiredKeys fields ≠ [] := by
  intro he
  exact h (by simp [shapeMissing, he])

/-- The `valueKeys.every(...)` loop of `shape`'s validator terminates
on the per-key conjunction of `shapeKeyOk`, appending its diagnostics
to the current sink target. -/
theorem utilsValidate_eq_of_run {env : UserEnv} {t : TypeArg} {value r : JSVal}
    {E : List String} (h : runReq env (.vt t value true) = .ok r [E]) :
    utilsValidate env value t = isTrueV r := by
  unfold utilsValidate validateType
  rw [h]

theorem shapeIter_sound (env : UserEnv) (self : Descriptor)
    (fields : List (String × TypeArg)) (hwf : ∀ p ∈ fields, WfArg env p.2) :
    ∀ (rem : List (String × JSVal)),
    ∃ E : List String, ∀ (n : Nat), fieldsSize fields + jsSizeFields rem < n →
      ∀ (hd : List String) (tl : WState),
        step env n (.shapeIter self fields rem) (hd :: tl)
          = .ok (.boolV (rem.all (fun p => shapeKeyOk env self fields p.1 p.2)))
               ((hd ++ E) :: tl) := by
  intro rem
  induction rem with
  | nil =>
    refine ⟨[], fun n hn hd tl => ?_⟩
    obtain ⟨m, rfl⟩ : ∃ m, n = m + 1 := ⟨n - 1, by omega⟩
    simp [step]
  | cons p rest ih =>
    obtain ⟨k, v⟩ := p
    obtain ⟨E2, hstep2⟩ := ih
    have hsz : jsSizeFields ((k, v) :: rest) = 1 + jsSize v + jsSizeFields rest := rfl
    cases hct : (fields.map Prod.fst).contains k with
    | false =>
      have hko : shapeKeyOk env self fields k v = self.isLoose := by
        show (if (fields.map Prod.fst).contains k then
            utilsValidate env v ((List.lookup k fields).getD (.bare .tnull))
          else self.isLoose) = self.isLoose
        rw [if_neg (by rw [hct]; decide)]
      cases hl : self.isLoose with
      | true =>
        refine ⟨E2, fun n hn hd tl => ?_⟩
        obtain ⟨m, rfl⟩ : ∃ m, n = m + 1 := ⟨n - 1, by omega⟩
        have hin2 := hstep2 m (by omega) hd tl
        simp only [step]
        rw [if_pos (by rw [hct]; decide), if_pos hl, hin2]
        simp [hko, hl]
      | false =>
        refine ⟨["shape - shape definition does not include a \"" ++ k
              ++ "\" property. Allowed keys: \""
              ++ String.intercalate "\", \"" (fields.map Prod.fst) ++ "\"."],
          fun n hn hd tl => ?_⟩
        obtain ⟨m, rfl⟩ : ∃ m, n = m + 1 := ⟨n - 1, by omega⟩
        simp only [step]
        rw [if_pos (by rw [hct]; decide), if_neg (by rw [hl]; decide)]
        simp [hko, hl, warnEmit]
    | true =>
      obtain ⟨ta, hta⟩ := contains_lookup_isSome hct
      have hwta : WfArg env ta := hwf _ (lookup_mem hta)
      obtain ⟨r1, E1, hrun1, hstep1⟩ := runReq_spec env (.vt ta v true)
        (WfReq.vt ta v true hwta)
      have hko : shapeKeyOk env self fields k v = isTrueV r1 := by
        show (if (fields.map Prod.fst).contains k then
            utilsValidate env v ((List.lookup k fields).getD (.bare .tnull))
          else self.isLoose) = isTrueV r1
        rw [if_pos hct, hta]
        exact utilsValidate_eq_of_run hrun1
      cases hr1 : isTrueV r1 with
      | true =>
        have hr1' : r1 = .boolV true := by
          cases r1 <;> simp_all [isTrueV]
        subst hr1'
        refine ⟨E1 ++ E2, fun n hn hd tl => ?_⟩
        obtain ⟨m, rfl⟩ : ∃ m, n = m + 1 := ⟨n - 1, by omega⟩
        have hm1 : reqSize (.vt ta v true) < m := by
          show targSize ta + jsSize v < m
          have h2 := lookup_targSize hta
          omega
        have hin1 := hstep1 m hm1 hd tl
        have hin2 := hstep2 m (by omega) (hd ++ E1) tl
        simp only [step]
        rw [if_neg (by rw [hct]; decide), hta]
        simp only [Option.getD, hin1]
        simp [isTrueV, hin2, hko, List.append_assoc]
      | false =>
        refine ⟨E1 ++ shapeFieldErr k r1, fun n hn hd tl => ?_⟩
        obtain ⟨m, rfl⟩ : ∃ m, n = m + 1 := ⟨n - 1, by omega⟩
        have hm1 : reqSize (.vt ta v true) < m := by
          show targSize ta + jsSize v < m
          have h2 := lookup_targSize hta
          omega
        have hin1 := hstep1 m hm1 hd tl
        simp only [step]
        rw [if_neg (by rw [hct]; decide), hta]
        simp only [Option.getD, hin1]
        rw [show ((k, v) :: rest).all (fun p => shapeKeyOk env self fields p.1 p.2)
            = false from by simp [List.all_cons, hko, hr1]]
        cases r1 with
        | boolV b =>
          have hb : b = false := by simpa [isTrueV] using hr1
          subst hb
          simp [isTrueV, warnEmit, shapeFieldErr, List.append_assoc]
        | strV s1 => simp [isTrueV, warnEmit, shapeFieldErr, List.append_assoc]
        | undef => simp [isTrueV, warnEmit, shapeFieldErr, List.append_assoc]
        | null => simp [isTrueV, warnEmit, shapeFieldErr, List.append_assoc]
        | numV x1 => simp [isTrueV, warnEmit, shapeFieldErr, List.append_assoc]
        | symV x1 => simp [isTrueV, warnEmit, shapeFieldErr, List.append_assoc]
        | funcV x1 => simp [isTrueV, warnEmit, shapeFieldErr, List.append_assoc]
        | arrV x1 => simp [isTrueV, warnEmit, shapeFieldErr, List.append_assoc]
        | objV x1 => simp [isTrueV, warnEmit, shapeFieldErr, List.append_assoc]
        | instV x1 x2 => simp [isTrueV, warnEmit, shapeFieldErr, List.append_assoc]

end VT

namespace VT

/-- C6: `shape(fields)`'s stored validator rejects non-plain-object
values outright; on a plain object it returns `false` with a
diagnostic listing every missing name when some `required === true`
field is absent from the value's own keys; otherwise it passes iff
every own key of the value is either declared and validates silently
to exactly `true` against its field descriptor, or is undeclared but
the loose flag is set (`shapeAccepts`/`shapeKeyOk`).  The builder
stores this validator, is strict by default, and `loose` flips only
the flag. -/
theorem claim_C6_shape (env : UserEnv) (self : Descriptor)
    (fields : List (String × TypeArg)) (value : JSVal)
    (hwf : ∀ p ∈ fields, WfArg env p.2) :
    (shape fields).validator = some (.shapeV fields) ∧
    (shape fields).isLoose = false ∧
    (shape fields).loose.validator = some (.shapeV fields) ∧
    (shape fields).loose.isLoose = true ∧
    ∃ E : List String,
      runReq env (.rv self (.shapeV fields) value)
        = .ok (.boolV (shapeAccepts env self fields value)) [E] ∧
      (isPlainObjectV value = true → shapeMissing fields value ≠ [] →
        E = [shapeMissingMsg (shapeMissing fields value)]) := by
  refine ⟨rfl, rfl, rfl, rfl, ?_⟩
  cases hpo : isPlainObjectV value with
  | false =>
    refine ⟨[], ?_, fun h1 _ => absurd h1 (by decide)⟩
    show step env (reqSize (.rv self (.shapeV fields) value) + 1)
      (.rv self (.shapeV fields) value) [[]] = _
    simp only [step]
    rw [if_pos (by rw [hpo]; decide)]
    rw [show shapeAccepts env self fields value = false from by simp [shapeAccepts, hpo]]
  | true =>
    obtain ⟨fs, rfl⟩ : ∃ fs, value = .objV fs := by
      cases value <;> first | exact ⟨_, rfl⟩ | simp [isPlainObjectV] at hpo
    by_cases hmiss : shapeMissing fields (.objV fs) = []
    · obtain ⟨E, hiter⟩ := shapeIter_sound env self fields hwf fs
      refine ⟨E, ?_, fun _ h2 => absurd hmiss h2⟩
      show step env (reqSize (.rv self (.shapeV fields) (.objV fs)) + 1)
        (.rv self (.shapeV fields) (.objV fs)) [[]] = _
      simp only [step]
      rw [if_neg (by simp [isPlainObjectV])]
      rw [if_neg (fun hc => hc.2 hmiss)]
      simp only [objFieldsOf]
      have hrun := hiter (reqSize (.rv self (.shapeV fields) (.objV fs)))
        (by
          show fieldsSize fields + jsSizeFields fs
            < (1 + fieldsSize fields) + (1 + jsSizeFields fs)
          omega) [] []
      rw [show shapeAccepts env self fields (.objV fs)
          = fs.all (fun p => shapeKeyOk env self fields p.1 p.2) from by
        simp [shapeAccepts, isPlainObjectV, hmiss, objFieldsOf]]
      rw [hrun]
      simp
    · have h1 := shapeMissing_requiredKeys_ne hmiss
      refine ⟨[shapeMissingMsg (shapeMissing fields (.objV fs))], ?_, fun _ _ => rfl⟩
      show step env (reqSize (.rv self (.shapeV fields) (.objV fs)) + 1)
        (.rv self (.shapeV fields) (.objV fs)) [[]] = _
      simp only [step]
      rw [if_neg (by simp [isPlainObjectV])]
      rw [if_pos ⟨h1, hmiss⟩]
      rw [show shapeAccepts env self fields (.objV fs) = false from by
        simp [shapeAccepts, isPlainObjectV, hmiss]]
      rfl

/-- Witness for C6, at the spec's own example
`shape({id: integer.isRequired, name: String})`: `{name:'John'}` is
rejected with the missing-required diagnostic for `id`, and `{id:10}`
(missing optional `name`) is accepted. -/
theorem claim_C6_witness :
    runReq env0 (.rv (shape [("id", .desc integerD.isRequired), ("name", .bare (.single .str))])
        (.shapeV [("id", .desc integerD.isRequired), ("name", .bare (.single .str))])
        (.objV [("name", .strV "John")]))
      = .ok (.boolV false) [[shapeMissingMsg ["id"]]] ∧
    shapeAccepts env0 (shape [("id", .desc integerD.isRequired), ("name", .bare (.single .str))])
      [("id", .desc integerD.isRequired), ("name", .bare (.single .str))]
      (.objV [("id", .numV 10)]) = true := by
  have h := claim_C6_shape env0
    (shape [("id", .desc integerD.isRequired), ("name", .bare (.single .str))])
    [("id", .desc integerD.isRequired), ("name", .bare (.single .str))]
    (.objV [("name", .strV "John")])
    (by
      intro p hp
      rcases List.mem_cons.mp hp with rfl | hp2
      · exact wf_isRequired env0 integerD (wf_integerD env0)
      · rcases List.mem_cons.mp hp2 with rfl | hp3
        · exact wf_bare_single env0 .str
        · cases hp3)
  exact ⟨rfl, rfl⟩

end VT

namespace VT

/-- C5: deriving from a parent descriptor via `extend` (index.js lines
121-143): `type`, `required` and `default` are inherited from the
parent where each is defined (a parent `type` holding `undefined` or a
`default` holding `undefined` do not count as defined; otherwise the
child's own entries are kept), the settable `validate` method is
forced off, and when the parent has a validator the derived validator
is the conjunction of the parent's validator (run first, with the
parent descriptor as its context) and the child's (or `stubTrue` when
the child supplies none): the composition short-circuits on — and
returns — the parent's falsy result, so it fails whenever the parent's
validator fails even if the child adds no validator of its own, and on
a truthy parent result it defers to the child's validator. -/
theorem claim_C5_extend (parent : Descriptor) (spec : ExtSpec) :
    (∀ tv, parent.typeF = some tv → tv ≠ .tundef →
      (extendWithParent parent spec).typeF = some tv) ∧
    (parent.typeF = none → (extendWithParent parent spec).typeF = none) ∧
    (∀ b, parent.required = some b → (extendWithParent parent spec).required = some b) ∧
    (parent.required = none → (extendWithParent parent spec).required = spec.requiredS) ∧
    (∀ dv, definedDefault parent.defaultF = some dv →
      (extendWithParent parent spec).defaultF = some dv) ∧
    (definedDefault parent.defaultF = none →
      (extendWithParent parent spec).defaultF = spec.defaultS) ∧
    (extendWithParent parent spec).validatable = false ∧
    (∀ pv, parent.validator = some pv →
      (extendWithParent parent spec).validator
        = some (.andThen parent (spec.validatorS.getD .stubTrueV))) ∧
    (parent.validator = none →
      (extendWithParent parent spec).validator = spec.validatorS) ∧
    (∀ (env : UserEnv) (self : Descriptor) (child : Validator) (value : JSVal)
       (pv : Validator) (n : Nat) (s : WState) (rp : JSVal) (s2 : WState),
      parent.validator = some pv →
      step env n (.rv parent pv value) s = .ok rp s2 →
      ((jsTruthy rp = false →
        step env (n + 1) (.rv self (.andThen parent child) value) s = .ok rp s2) ∧
       (jsTruthy rp = true →
        step env (n + 1) (.rv self (.andThen parent child) value) s
          = step env n (.rv self child value) s2))) := by
  refine ⟨?_, ?_, ?_, ?_, ?_, ?_, rfl, ?_, ?_, ?_⟩
  · intro tv h hne
    rw [show (extendWithParent parent spec).typeF
        = (match parent.typeF with
           | some .tundef => (none : Option TypeVal)
           | some tv2 => some tv2
           | none => none) from rfl, h]
    cases tv with
    | tundef => exact absurd rfl hne
    | tnull => rfl
    | single c => rfl
    | tlist ms => rfl
  · intro h
    rw [show (extendWithParent parent spec).typeF
        = (match parent.typeF with
           | some .tundef => (none : Option TypeVal)
           | some tv2 => some tv2
           | none => none) from rfl, h]
  · intro b h
    rw [show (extendWithParent parent spec).required
        = (match parent.required with
           | some b2 => some b2
           | none => spec.requiredS) from rfl, h]
  · intro h
    rw [show (extendWithParent parent spec).required
        = (match parent.required with
           | some b2 => some b2
           | none => spec.requiredS) from rfl, h]
  · intro dv h
    rw [show (extendWithParent parent spec).defaultF
        = (match definedDefault parent.defaultF with
           | some dv2 => some dv2
           | none => spec.defaultS) from rfl, h]
  · intro h
    rw [show (extendWithParent parent spec).defaultF
        = (match definedDefault parent.defaultF with
           | some dv2 => some dv2
           | none => spec.defaultS) from rfl, h]
  · intro pv h
    rw [show (extendWithParent parent spec).validator
        = (match parent.validator with
           | some _ => some (Validator.andThen parent (spec.validatorS.getD .stubTrueV))
           | none => spec.validatorS) from rfl, h]
  · intro h
    rw [show (extendWithParent parent spec).validator
        = (match parent.validator with
           | some _ => some (Validator.andThen parent (spec.validatorS.getD .stubTrueV))
           | none => spec.validatorS) from rfl, h]
  · intro env self child value pv n s rp s2 hpv hrun
    constructor
    · intro hf
      simp only [step, hpv]
      rw [hrun]
      simp [hf]
    · intro ht
      simp only [step, hpv]
      rw [hrun]
      simp [ht]

/-- Witness for C5: extending `integer` with a validator-less spec
inherits the `Number` type, forces `validate` off, composes with
`stubTrue`, and the derived validator fails on `"a"` exactly because
the parent's integer check fails. -/
theorem claim_C5_witness :
    (extendWithParent integerD { name := "bigint" }).typeF = some (.single .number) ∧
    (extendWithParent integerD { name := "bigint" }).validatable = false ∧
    (extendWithParent integerD { name := "bigint" }).validator
      = some (.andThen integerD .stubTrueV) ∧
    step env0 2 (.rv (extendWithParent integerD { name := "bigint" })
        (.andThen integerD .stubTrueV) (.strV "a")) [[]]
      = .ok (.boolV false) [[]] := by
  have h := claim_C5_extend integerD { name := "bigint" }
  refine ⟨h.1 _ rfl (by simp), h.2.2.2.2.2.2.1, h.2.2.2.2.2.2.2.1 _ rfl, ?_⟩
  exact (h.2.2.2.2.2.2.2.2.2 env0 (extendWithParent integerD { name := "bigint" })
    .stubTrueV (.strV "a") .integerV 1 [[]] (.boolV false) [[]] rfl rfl).1 rfl

end VT
